import Mathlib

/-!
Verification development for the CodeBridge Context Expansion Engine.

This file shallowly embeds the engine's source into Lean:

* `src/core/utils.ts` : `globToRegex` / `isIgnored` (exclusion-pattern matching),
* `src/features/analysis/strategies.ts` : the `DependencyWalker` BFS engine
  (`walk`, `addToQueue`, `processNode`, `resolveRelativeImports`,
  `resolveSymbolReferences`, `isAllowed`),
* the Expansion Coordinator (`ContextManager.expandContext`,
  `ContextExpansionStep.execute`).

Modelling conventions:

* Machine strings are `String` / `List Char`; editor URIs are a pair of a
  scheme and a path, compared structurally (in the source the visited set is
  keyed by `uri.toString()`, a canonical injective serialization of the URI,
  so structural equality of the pair is the same relation).
* Host language services (link provider, definition provider, document-symbol
  provider, reference provider, workspace lookup) are fields of a `Host`
  record.  Fallible calls return `Except Unit _`; `.error` models a thrown
  exception, caught exactly where the source has `try`/`catch`.
* Text positions are byte offsets into the document (the source converts an
  offset to a line/column `Position` with `positionAt` and hands it straight
  to a provider; the conversion is a bijection, so the offset itself is used
  as the lookup key).
* `async`/`await` sequencing is direct state passing: the engine awaits every
  provider call before continuing, so one walk is a sequential computation.
* The JavaScript regex atoms `.` and `.*` are modelled as matching any
  character, including line terminators (relative paths contain none).
  The `i` flag is modelled by comparing `Char.toLower` images.
* The BFS loop (`while` over the queue) is given explicit fuel and returns
  `none` if the fuel runs out, so that termination is a provable statement
  rather than an assumption.
-/

namespace CodeBridge

/-! ## Exclusion pattern matching (`src/core/utils.ts`) -/

/-- The characters escaped by `globToRegex`:
`p.replace(/[.+^${}()|[\]\\*?]/g, '\\$&')`. -/
def specialChars : List Char :=
  ['.', '+', '^', '$', '{', '}', '(', ')', '|', '[', ']', '\\', '*', '?']

/-- Escape one character as the replace above does. -/
def escapeChar (c : Char) : List Char :=
  if c ∈ specialChars then ['\\', c] else [c]

/-- `s.replace(/\\/g, '/')` : normalize backslashes to forward slashes. -/
def normSlashes (s : List Char) : List Char :=
  s.map fun c => if c = '\\' then '/' else c

/-- Global string replacement, as JavaScript `String.replace` with a global
literal pattern: scan left to right, replace each non-overlapping occurrence,
resume after the replacement site. -/
def replaceAll (pat rep : List Char) (s : List Char) : List Char :=
  match s with
  | [] => []
  | c :: cs =>
    if h : pat ≠ [] ∧ pat.isPrefixOf (c :: cs) then
      rep ++ replaceAll pat rep (List.drop pat.length (c :: cs))
    else
      c :: replaceAll pat rep cs
termination_by s.length
decreasing_by
  · have hp : 0 < pat.length := List.length_pos.mpr h.1
    simp only [List.length_drop, List.length_cons]
    omega
  · simp

/-- Tokens of the regular expressions produced by `globToRegex`.  The
generated regexes consist only of escaped literal characters and the atoms
the four rewrite steps can insert: `(?:.*/)?`, `.*`, `[^/]*` and `.` (the
first rewrite turns out to be inert — see `globToRegexToks` — but its
atom is kept in the alphabet and recognized by the parser). -/
inductive RTok where
  | rlit (c : Char)
  | rdot
  | rdotStar
  | rnonSlashStar
  | roptSeg
deriving DecidableEq, Repr

/-- Parse the generated regex source back into its token sequence, longest
atom first.  Only strings produced by `globToRegex` are ever parsed; on
those the grammar is unambiguous (multi-character atoms cannot arise from
escaped literals). -/
def parseRegex (s : List Char) : List RTok :=
  match s with
  | [] => []
  | c :: cs =>
    if ("(?:.*/)?").toList.isPrefixOf (c :: cs) then
      .roptSeg :: parseRegex (List.drop 8 (c :: cs))
    else if ("[^/]*").toList.isPrefixOf (c :: cs) then
      .rnonSlashStar :: parseRegex (List.drop 5 (c :: cs))
    else if (".*").toList.isPrefixOf (c :: cs) then
      .rdotStar :: parseRegex (List.drop 2 (c :: cs))
    else if c = '.' then .rdot :: parseRegex cs
    else if c = '\\' then
      match cs with
      | [] => [.rlit '\\']
      | d :: cs2 => .rlit d :: parseRegex cs2
    else .rlit c :: parseRegex cs
termination_by s.length
decreasing_by
  all_goals simp only [List.length_drop, List.length_cons]
  all_goals omega

/-- Case-insensitive character comparison (the `i` regex flag). -/
def lowEq (a b : Char) : Bool := a.toLower == b.toLower

/-- Measure for the matcher: `(?:.*/)?` unfolds to two smaller tokens. -/
def rtokSize : RTok → Nat
  | .roptSeg => 3
  | _ => 1

/-- Total size of a token list. -/
def rsize (ts : List RTok) : Nat := (ts.map rtokSize).sum

/-- Anchored (`^...$`), case-insensitive matching of a generated regex
against a string: the semantics of `new RegExp('^'+r+'$', 'i').test(s)`
for the token alphabet above. -/
def rxMatch : List RTok → List Char → Bool
  | [], [] => true
  | [], _ :: _ => false
  | .rlit _ :: _, [] => false
  | .rlit c :: ts, d :: s => lowEq c d && rxMatch ts s
  | .rdot :: _, [] => false
  | .rdot :: ts, _ :: s => rxMatch ts s
  | .rdotStar :: ts, s =>
    rxMatch ts s ||
      (match s with
       | [] => false
       | _ :: s' => rxMatch (.rdotStar :: ts) s')
  | .rnonSlashStar :: ts, s =>
    rxMatch ts s ||
      (match s with
       | [] => false
       | d :: s' => decide (d ≠ '/') && rxMatch (.rnonSlashStar :: ts) s')
  | .roptSeg :: ts, s => rxMatch ts s || rxMatch (.rdotStar :: .rlit '/' :: ts) s
termination_by ts s => (rsize ts, s.length)
decreasing_by
  all_goals
    first
      | (apply Prod.Lex.right; simp; done)
      | (apply Prod.Lex.left; simp [rsize, rtokSize]; omega)
      | (apply Prod.Lex.left; simp [rsize, rtokSize]; done)

/-- `globToRegex` from `src/core/utils.ts`, producing the token form of the
generated regex: normalize backslashes, prepend `**/` when the pattern has no
slash, escape regex metacharacters, then apply the four global rewrites in
order.  The first rewrite's search regex is `/\\\*\\\*\\\//g`, whose
`\\` before the final `\/` makes it search for the six-character text
backslash-star-backslash-star-backslash-slash; the escape step never escapes
a slash, so that text never occurs and the rewrite is inert.  The remaining
rewrites are backslash-star-star → `.*`, backslash-star → `[^/]*` and
backslash-question → `.`.  (The in-memory `REGEX_CACHE` is pure memoisation
and is not modelled.) -/
def globToRegexToks (glob : List Char) : List RTok :=
  let p0 := normSlashes glob
  let p := if p0.contains '/' then p0 else '*' :: '*' :: '/' :: p0
  let escaped := p.flatMap escapeChar
  let r1 := replaceAll ("\\*\\*\\/").toList ("(?:.*/)?").toList escaped
  let r2 := replaceAll ("\\*\\*").toList (".*").toList r1
  let r3 := replaceAll ("\\*").toList ("[^/]*").toList r2
  let r4 := replaceAll ("\\?").toList (".").toList r3
  parseRegex r4

/-- `haystack.includes(needle)` on character lists: a contiguous-substring
check, used for the `normalizedPath.includes('/' + cleanPattern + '/')`
test below. -/
def containsSub (pat s : List Char) : Bool :=
  match s with
  | [] => pat.isEmpty
  | _ :: cs => pat.isPrefixOf s || containsSub pat cs

/-- Does a (normalized) pattern contain a wildcard character? -/
def hasWildcard (p : List Char) : Bool := p.contains '*' || p.contains '?'

/-- `p.replace(/\/$/, '')` : remove one trailing slash. -/
def stripTrailingSlash (p : List Char) : List Char :=
  if p.getLast? = some '/' then p.dropLast else p

/-- The body of the `for (const pattern of patterns)` loop in `isIgnored`:
whether one pattern matches the already-normalized relative path. -/
def matchesPattern (normalizedPath : List Char) (pattern : List Char) : Bool :=
  let p := normSlashes pattern
  if ¬ hasWildcard p then
    let clean := stripTrailingSlash p
    normalizedPath == clean ||
      (clean ++ ['/']).isPrefixOf normalizedPath ||
      containsSub (('/' :: clean) ++ ['/']) normalizedPath ||
      ('/' :: clean).isSuffixOf normalizedPath
  else
    rxMatch (globToRegexToks p) normalizedPath

/-- `isIgnored` from `src/core/utils.ts`. -/
def isIgnored (relativePath : String) (patterns : List String) : Bool :=
  if patterns = [] then false
  else
    let normalizedPath := normSlashes relativePath.toList
    patterns.any fun pat => matchesPattern normalizedPath pat.toList

/-! ### Claim-side and grammar-side views of pattern matching

The definitions below are the comparison points for the pattern-matching
claims: two matchers transcribed from the specification's wording (the
literal four-way test and the wildcard token semantics), and a token
grammar of glob patterns with its declarative matching semantics. -/

/-- Stated from the C7 specification sentence, verbatim: a wildcard-free
pattern matches when the slash-normalized relative path equals the pattern,
starts with the pattern followed by a slash, contains the pattern between
two slashes, or ends with a slash followed by the pattern.  The pattern
itself is taken as written. -/
def claimLiteralMatch (relativePath pattern : String) : Bool :=
  let np := normSlashes relativePath.toList
  let p := pattern.toList
  np == p ||
    (p ++ ['/']).isPrefixOf np ||
    containsSub (('/' :: p) ++ ['/']) np ||
    ('/' :: p).isSuffixOf np

/-- The four-way literal test as `isIgnored` actually performs it: the
pattern is first backslash-normalized and stripped of one trailing slash. -/
def cleanedLiteralMatch (relativePath pattern : String) : Bool :=
  let np := normSlashes relativePath.toList
  let clean := stripTrailingSlash (normSlashes pattern.toList)
  np == clean ||
    (clean ++ ['/']).isPrefixOf np ||
    containsSub (('/' :: clean) ++ ['/']) np ||
    ('/' :: clean).isSuffixOf np

/-- Stated from the C6 specification sentence: the token alphabet of a
wildcard pattern as the claim reads it.  `csegs` is a `**/` (zero or more
leading path segments), `ctrail` is a pattern-final `/**` (zero or more
trailing segments), `cstar` a `*` (a run of non-separator characters),
`cdot` a `?` (exactly one character), `clit` a literal character compared
case-insensitively. -/
inductive CTok where
  | clit (c : Char)
  | cdot
  | cstar
  | csegs
  | ctrail
deriving DecidableEq, Repr

/-- Stated from the C6 specification sentence: read a pattern into claim
tokens, `**/` and a pattern-final `/**` first. -/
def claimTokenize : List Char → List CTok
  | [] => []
  | '*' :: '*' :: '/' :: rest => .csegs :: claimTokenize rest
  | ['/', '*', '*'] => [.ctrail]
  | '?' :: rest => .cdot :: claimTokenize rest
  | '*' :: rest => .cstar :: claimTokenize rest
  | c :: rest => .clit c :: claimTokenize rest

/-- Size measure for the claim-side matcher. -/
def ctokSize : CTok → Nat
  | .clit _ => 1
  | .cdot => 1
  | _ => 2

/-- Total size of a claim-token list. -/
def csize (ts : List CTok) : Nat := (ts.map ctokSize).sum

mutual

/-- Stated from the C6 specification sentence: anchored, case-insensitive
matching of claim tokens against a path. -/
def cMatch : List CTok → List Char → Bool
  | [], [] => true
  | [], _ :: _ => false
  | .clit _ :: _, [] => false
  | .clit c :: ts, d :: s => lowEq c d && cMatch ts s
  | .cdot :: _, [] => false
  | .cdot :: ts, _ :: s => cMatch ts s
  | .cstar :: ts, s => cMatch ts s || cstarScan ts s
  | .csegs :: ts, s => cMatch ts s || csegScan ts s
  | .ctrail :: ts, s =>
    cMatch ts s ||
      (match s with
       | '/' :: s' => cMatch ts s' || canyScan ts s'
       | _ => false)
termination_by ts s => (csize ts, s.length)
decreasing_by
  all_goals
    first
      | (apply Prod.Lex.right; simp; done)
      | (apply Prod.Lex.left; simp [csize, ctokSize]; omega)
      | (apply Prod.Lex.left; simp [csize, ctokSize]; done)

/-- Consume one or more non-separator characters, then match the rest. -/
def cstarScan (ts : List CTok) : List Char → Bool
  | [] => false
  | d :: s => decide (d ≠ '/') && (cMatch ts s || cstarScan ts s)
termination_by s => (csize ts + 1, s.length)
decreasing_by
  all_goals
    first
      | (apply Prod.Lex.right; simp; done)
      | (apply Prod.Lex.left; simp [csize, ctokSize]; omega)
      | (apply Prod.Lex.left; simp [csize, ctokSize]; done)

/-- Consume one or more characters ending at a separator, then match. -/
def csegScan (ts : List CTok) : List Char → Bool
  | [] => false
  | d :: s => (decide (d = '/') && cMatch ts s) || csegScan ts s
termination_by s => (csize ts + 1, s.length)
decreasing_by
  all_goals
    first
      | (apply Prod.Lex.right; simp; done)
      | (apply Prod.Lex.left; simp [csize, ctokSize]; omega)
      | (apply Prod.Lex.left; simp [csize, ctokSize]; done)

/-- Consume one or more arbitrary characters, then match the rest. -/
def canyScan (ts : List CTok) : List Char → Bool
  | [] => false
  | _ :: s => cMatch ts s || canyScan ts s
termination_by s => (csize ts + 1, s.length)
decreasing_by
  all_goals
    first
      | (apply Prod.Lex.right; simp; done)
      | (apply Prod.Lex.left; simp [csize, ctokSize]; omega)
      | (apply Prod.Lex.left; simp [csize, ctokSize]; done)

end

/-- Stated from the C6 specification sentence: the claim's reading of
wildcard-pattern matching against the slash-normalized relative path. -/
def claimGlobMatch (relativePath pattern : String) : Bool :=
  cMatch (claimTokenize pattern.toList) (normSlashes relativePath.toList)

/-- Token grammar of well-formed glob patterns: a literal character, `?`,
`*`, `**` (not followed by `/`), and `**/`. -/
inductive GlobTok where
  | lit (c : Char)
  | q
  | star
  | dstar
  | dstarSlash
deriving DecidableEq, Repr

/-- The pattern text of one token. -/
def GlobTok.render : GlobTok → List Char
  | .lit c => [c]
  | .q => ['?']
  | .star => ['*']
  | .dstar => ['*', '*']
  | .dstarSlash => ['*', '*', '/']

/-- The pattern text of a token list. -/
def renderGlob (ts : List GlobTok) : List Char := ts.flatMap GlobTok.render

/-- A literal token may not itself be a wildcard or an escape. -/
def okLit : GlobTok → Bool
  | .lit c => decide (c ≠ '*') && decide (c ≠ '?') && decide (c ≠ '\\')
  | _ => true

/-- Adjacent tokens whose texts would change reading when concatenated are
excluded: a `*`/`**` may not be followed by another star token, and `**`
may not be followed by a literal `/` (that text reads as `**/`). -/
def okPair : GlobTok → GlobTok → Bool
  | .star, .star => false
  | .star, .dstar => false
  | .star, .dstarSlash => false
  | .dstar, .star => false
  | .dstar, .dstar => false
  | .dstar, .dstarSlash => false
  | .dstar, .lit c => decide (c ≠ '/')
  | _, _ => true

/-- All adjacent pairs of a token list are acceptable. -/
def okPairs : List GlobTok → Bool
  | [] => true
  | [_] => true
  | a :: b :: rest => okPair a b && okPairs (b :: rest)

/-- A well-formed glob token list. -/
def wfGlob (ts : List GlobTok) : Bool := ts.all okLit && okPairs ts

/-- The token list a pattern is effectively read as, after `globToRegex`
prepends `**/` to slash-free patterns. -/
def effectiveToks (ts : List GlobTok) : List GlobTok :=
  if (renderGlob ts).contains '/' then ts else .dstarSlash :: ts

/-- Declarative matching semantics of the glob token alphabet against a
slash-normalized path: `?` matches exactly one character, `*` a run of
non-separator characters, `**` a run of arbitrary characters, literals
compare case-insensitively, and `**/` matches a run of arbitrary
characters followed by a mandatory separator (one or more leading
segments — never zero, since the rewrite that would have made the group
optional is inert). -/
def SemMatch : List GlobTok → List Char → Prop
  | [], s => s = []
  | .lit c :: ts, s => ∃ d s', s = d :: s' ∧ lowEq c d = true ∧ SemMatch ts s'
  | .q :: ts, s => ∃ d s', s = d :: s' ∧ SemMatch ts s'
  | .star :: ts, s => ∃ a b, s = a ++ b ∧ (∀ c ∈ a, c ≠ '/') ∧ SemMatch ts b
  | .dstar :: ts, s => ∃ a b, s = a ++ b ∧ SemMatch ts b
  | .dstarSlash :: ts, s => ∃ a b, s = a ++ '/' :: b ∧ SemMatch ts b

/-- Token text after escaping. -/
def escTok : GlobTok → List Char
  | .lit c => escapeChar c
  | .q => ['\\', '?']
  | .star => ['\\', '*']
  | .dstar => ['\\', '*', '\\', '*']
  | .dstarSlash => ['\\', '*', '\\', '*', '/']

/-- Token text after the (inert) first rewrite and the backslash-star-star
to `.*` rewrite: the `**/` text loses its escaped star pair but keeps its
literal slash. -/
def stage2Tok : GlobTok → List Char
  | .dstar => ['.', '*']
  | .dstarSlash => ['.', '*', '/']
  | t => escTok t

/-- Token text after the backslash-star to `[^/]*` rewrite. -/
def stage3Tok : GlobTok → List Char
  | .star => ['[', '^', '/', ']', '*']
  | t => stage2Tok t

/-- Token text after the backslash-question to `.` rewrite: the final
regex text. -/
def stage4Tok : GlobTok → List Char
  | .q => ['.']
  | t => stage3Tok t

/-- Regex tokens of one glob token.  Because the first rewrite is inert,
`**/` compiles through the backslash-star-star rewrite into `.*` followed
by a literal slash. -/
def GlobTok.compile : GlobTok → List RTok
  | .lit c => [.rlit c]
  | .q => [.rdot]
  | .star => [.rnonSlashStar]
  | .dstar => [.rdotStar]
  | .dstarSlash => [.rdotStar, .rlit '/']

/-- The pattern `*.log` as glob tokens. -/
def exGlob : List GlobTok := [.star, .lit '.', .lit 'l', .lit 'o', .lit 'g']
/-! ## The dependency walker (`src/features/analysis/strategies.ts`) -/

/-- `AnalysisStrategy` from `src/features/analysis/types.ts`. -/
inductive AnalysisStrategy where
  | none
  | shallow
  | deep
deriving DecidableEq, Repr

/-- An editor resource identifier: a scheme plus the rest of the URI.
`uri.toString()` is a canonical injective serialization, so the source's
string-keyed visited set is modelled by structural equality of this pair. -/
structure Uri where
  scheme : String
  path : String
deriving DecidableEq, Repr

/-- `WalkerOptions` from `strategies.ts`.  `symbolKinds` is
`Set<vscode.SymbolKind> | undefined`; symbol kinds are the numeric
`vscode.SymbolKind` enumeration values. -/
structure WalkerOptions where
  excludePatterns : List String
  maxFiles : Nat
  maxDepth : Nat
  strategy : AnalysisStrategy
  symbolKinds : Option (List Nat)
deriving Repr

/-- `MAX_SYMBOLS_PER_FILE` from `strategies.ts`. -/
def MAX_SYMBOLS_PER_FILE : Nat := 25

/-- A `vscode.DocumentLink`: the `target` field is optional. -/
structure DocumentLink where
  target : Option Uri
deriving DecidableEq, Repr

/-- A `vscode.DocumentSymbol`: kind, `selectionRange.start` (as an offset)
and nested children. -/
inductive DocumentSymbol where
  | node (kind : Nat) (selectionStart : Nat) (children : List DocumentSymbol)
deriving Repr

/-- A `vscode.SymbolInformation`: kind and `location.range.start`. -/
structure SymbolInformation where
  kind : Nat
  rangeStart : Nat
deriving DecidableEq, Repr

/-- `executeDocumentSymbolProvider` returns either hierarchical
`DocumentSymbol[]` or flat `SymbolInformation[]` (the source distinguishes
the two by probing `'selectionRange' in first`). -/
inductive SymbolResponse where
  | docSymbols (syms : List DocumentSymbol)
  | symbolInfos (syms : List SymbolInformation)
deriving Repr

/-- The host editor capabilities consumed by the walker.  `Except Unit _`
results model calls that may throw. -/
structure Host where
  openTextDocument : Uri → Except Unit String
  executeLinkProvider : Uri → Except Unit (List DocumentLink)
  executeDefinitionProvider : Uri → Nat → Except Unit (List Uri)
  executeDocumentSymbolProvider : Uri → Except Unit SymbolResponse
  executeReferenceProvider : Uri → Nat → Except Unit (List Uri)
  getWorkspaceFolder : Uri → Option String
  asRelativePath : Uri → String

/-- `DependencyWalker.isAllowed`: scheme must be `file` or `vscode-vfs`, the
URI must be inside some workspace folder, and its relative path must not be
excluded. -/
def isAllowed (host : Host) (opts : WalkerOptions) (uri : Uri) : Bool :=
  if uri.scheme ≠ "file" ∧ uri.scheme ≠ "vscode-vfs" then false
  else
    match host.getWorkspaceFolder uri with
    | Option.none => false
    | Option.some _ => ! isIgnored (host.asRelativePath uri) opts.excludePatterns

/-- The walker's mutable state: `visited` set, FIFO `queue`, `results`
accumulator. -/
structure WalkState where
  visited : List Uri
  queue : List (Uri × Nat)
  results : List Uri
deriving DecidableEq, Repr

/-- `DependencyWalker.addToQueue`: on first visit, mark visited, append to
the results when `depth > 0`, and enqueue. -/
def addToQueue (st : WalkState) (uri : Uri) (depth : Nat) : WalkState :=
  if st.visited.contains uri then st
  else
    { visited := uri :: st.visited
      queue := st.queue ++ [(uri, depth)]
      results := if depth > 0 then st.results ++ [uri] else st.results }

/-! ### The relative-import scanner

`resolveRelativeImports` runs `/['"](\.{1,2}\/[^'"]+)['"]/g` over the
document text and resolves a definition at `match.index + 1` for every
match.  The scan is reproduced exactly: the regex engine needs no
backtracking here because `[^'"]+` is maximal and must be followed by a
quote, and `\.{1,2}` prefers two dots. -/

/-- Is the character one of the two quote characters of the import regex? -/
def isQuote (c : Char) : Bool := c == '\'' || c == '"'

/-- Match `\.{1,2}\/` at the head: greedy, so `../` is preferred over `./`. -/
def dotsSlashLen : List Char → Option Nat
  | '.' :: '.' :: '/' :: _ => some 3
  | '.' :: '/' :: _ => some 2
  | _ => Option.none

/-- Try to match the whole import regex at the head of `s`; return the
length of the match. -/
def importMatchLen (s : List Char) : Option Nat :=
  match s with
  | [] => Option.none
  | q :: rest =>
    if isQuote q then
      match dotsSlashLen rest with
      | Option.some d =>
        let tail := rest.drop d
        let run := tail.takeWhile fun c => ! isQuote c
        match tail.drop run.length with
        | q2 :: _ =>
          if run.length > 0 ∧ isQuote q2 then some (1 + d + run.length + 1) else Option.none
        | [] => Option.none
      | Option.none => Option.none
    else Option.none

/-- The `exec` loop: leftmost matches, resuming after each match; collects
`match.index + 1` (the offset passed to `positionAt`) for every match.
Every step consumes at least the head character (a successful match has
length at least five), so a step budget of `s.length` is exact; the budget
makes the recursion structural. -/
def scanImportsAux : Nat → List Char → Nat → List Nat
  | 0, _, _ => []
  | _, [], _ => []
  | steps + 1, c :: cs, idx =>
    match importMatchLen (c :: cs) with
    | Option.some len => (idx + 1) :: scanImportsAux steps (cs.drop (len - 1)) (idx + len)
    | Option.none => scanImportsAux steps cs (idx + 1)

/-- See `scanImportsAux`. -/
def scanImports (s : List Char) (idx : Nat) : List Nat :=
  scanImportsAux s.length s idx

/-- `DependencyWalker.resolveRelativeImports`: for each import-shaped match,
ask the definition provider at the match position (each lookup wrapped in
its own `try`/`catch`) and enqueue every allowed target. -/
def resolveRelativeImports (host : Host) (opts : WalkerOptions) (st : WalkState)
    (text : String) (uri : Uri) (currentDepth : Nat) : WalkState :=
  (scanImports text.toList 0).foldl
    (fun s pos =>
      match host.executeDefinitionProvider uri pos with
      | .error _ => s
      | .ok locations =>
        locations.foldl
          (fun s2 targetUri =>
            if isAllowed host opts targetUri then addToQueue s2 targetUri (currentDepth + 1)
            else s2)
          s)
    st

/-- `DependencyWalker.flattenDocumentSymbols`: preorder flattening. -/
def flattenDocumentSymbols : List DocumentSymbol → List DocumentSymbol
  | [] => []
  | .node k p ch :: rest =>
    .node k p ch :: (flattenDocumentSymbols ch ++ flattenDocumentSymbols rest)

/-- One entry of `symbolEntries` in `resolveSymbolReferences`. -/
structure SymEntry where
  kind : Nat
  position : Nat
deriving DecidableEq, Repr

/-- The inner `for (const ref of refs)` loop: budget check before every ref,
then filter and enqueue. -/
def refsLoop (host : Host) (opts : WalkerOptions) (currentDepth : Nat) :
    List Uri → WalkState → WalkState
  | [], st => st
  | r :: rs, st =>
    if opts.maxFiles > 0 ∧ st.results.length ≥ opts.maxFiles then st
    else
      refsLoop host opts currentDepth rs
        (if isAllowed host opts r then addToQueue st r (currentDepth + 1) else st)

/-- The outer `for (const symbol of candidates)` loop: budget check before
every symbol; each reference lookup wrapped in its own `try`/`catch`. -/
def symbolsLoop (host : Host) (opts : WalkerOptions) (uri : Uri) (currentDepth : Nat) :
    List SymEntry → WalkState → WalkState
  | [], st => st
  | sym :: rest, st =>
    if opts.maxFiles > 0 ∧ st.results.length ≥ opts.maxFiles then st
    else
      symbolsLoop host opts uri currentDepth rest
        (match host.executeReferenceProvider uri sym.position with
         | .error _ => st
         | .ok refs => refsLoop host opts currentDepth refs st)

/-- The `symbolEntries` normalization in `resolveSymbolReferences`: flatten
hierarchical symbols to `(kind, selectionRange.start)`, or map flat symbol
information to `(kind, location.range.start)`.  (An empty response makes the
source return early; that path adds nothing, like the empty entry list.) -/
def symbolEntriesOf : SymbolResponse → List SymEntry
  | .docSymbols syms =>
    (flattenDocumentSymbols syms).map fun s =>
      match s with
      | .node k p _ => ⟨k, p⟩
  | .symbolInfos infos => infos.map fun s => ⟨s.kind, s.rangeStart⟩

/-- `DependencyWalker.resolveSymbolReferences`: early budget return, fetch
document symbols, flatten/normalize to `(kind, position)` entries, filter by
the configured kind allow-list, cap at `MAX_SYMBOLS_PER_FILE`, then look up
references per symbol.  A throwing document-symbol call propagates to
`processNode`'s catch, which keeps the state accumulated so far — the same
state this function returns for it. -/
def resolveSymbolReferences (host : Host) (opts : WalkerOptions) (st : WalkState)
    (uri : Uri) (currentDepth : Nat) : WalkState :=
  if opts.maxFiles > 0 ∧ st.results.length ≥ opts.maxFiles then st
  else
    match host.executeDocumentSymbolProvider uri with
    | .error _ => st
    | .ok resp =>
      match opts.symbolKinds with
      | Option.none => st
      | Option.some allowed =>
        if allowed = [] then st
        else
          let candidates :=
            ((symbolEntriesOf resp).filter fun e =>
              allowed.contains e.kind).take MAX_SYMBOLS_PER_FILE
          symbolsLoop host opts uri currentDepth candidates st

/-- `DependencyWalker.processNode`.  The whole body is inside one
`try`/`catch`: a throwing `openTextDocument` or link-provider call abandons
the node (state mutated so far survives — here no mutation precedes those
calls); the import and symbol phases guard their own provider calls, so
their failures are local.  `resolveRelativeImports` runs for **every**
strategy; `resolveSymbolReferences` only for `deep` with a non-empty
symbol-kind set. -/
def processNode (host : Host) (opts : WalkerOptions) (st : WalkState)
    (uri : Uri) (currentDepth : Nat) : WalkState :=
  match host.openTextDocument uri with
  | .error _ => st
  | .ok text =>
    match host.executeLinkProvider uri with
    | .error _ => st
    | .ok links =>
      let st1 :=
        links.foldl
          (fun s link =>
            match link.target with
            | Option.none => s
            | Option.some t =>
              if isAllowed host opts t then addToQueue s t (currentDepth + 1) else s)
          st
      let st2 := resolveRelativeImports host opts st1 text uri currentDepth
      if opts.strategy = .deep ∧ opts.symbolKinds.getD [] ≠ [] then
        resolveSymbolReferences host opts st2 uri currentDepth
      else st2

/-- The `while (this.queue.length > 0)` loop of `DependencyWalker.walk`,
with explicit fuel: budget check, dequeue, depth check, process.  Returns
`none` when the fuel runs out before the loop exits. -/
def walkLoop (host : Host) (opts : WalkerOptions) : Nat → WalkState → Option WalkState
  | 0, _ => Option.none
  | fuel + 1, st =>
    match st.queue with
    | [] => some st
    | (uri, depth) :: rest =>
      if opts.maxFiles > 0 ∧ st.results.length ≥ opts.maxFiles then some st
      else
        let st' := { st with queue := rest }
        if depth ≥ opts.maxDepth then walkLoop host opts fuel st'
        else walkLoop host opts fuel (processNode host opts st' uri depth)

/-- `DependencyWalker.walk`: reset the state, enqueue the root at depth 0,
run the loop, return the results. -/
def walk (host : Host) (opts : WalkerOptions) (fuel : Nat) (rootUri : Uri) :
    Option (List Uri) :=
  let st0 := addToQueue ⟨[], [], []⟩ rootUri 0
  (walkLoop host opts fuel st0).map WalkState.results

/-! ### The per-node candidate list

`nodeCandidates` is the aggregated, ordered candidate list a node
contributes: allowed link targets, then allowed definition targets of each
relative-import match, then (deep strategy with configured kinds) allowed
reference locations of the capped, kind-filtered symbols.  This is the
"relation graph" of the specification: `processNode` enqueues exactly these
candidates (in this order) when no budget interrupts it, and never enqueues
anything outside this list. -/

/-- The `candidates` list of `resolveSymbolReferences`: kind-filtered
entries, capped at `MAX_SYMBOLS_PER_FILE`. -/
def symbolCandidatesOf (h : Host) (o : WalkerOptions) (u : Uri) : List SymEntry :=
  match h.executeDocumentSymbolProvider u with
  | .error _ => []
  | .ok resp =>
    match o.symbolKinds with
    | Option.none => []
    | Option.some allowed =>
      if allowed = [] then []
      else
        ((symbolEntriesOf resp).filter fun e =>
          allowed.contains e.kind).take MAX_SYMBOLS_PER_FILE

/-- The full ordered candidate list of one node (see section header). -/
def nodeCandidates (h : Host) (o : WalkerOptions) (u : Uri) : List Uri :=
  match h.openTextDocument u with
  | .error _ => []
  | .ok text =>
    match h.executeLinkProvider u with
    | .error _ => []
    | .ok links =>
      let linkPart := (links.filterMap DocumentLink.target).filter fun t => isAllowed h o t
      let importPart :=
        (scanImports text.toList 0).flatMap fun pos =>
          match h.executeDefinitionProvider u pos with
          | .error _ => []
          | .ok locs => locs.filter fun t => isAllowed h o t
      let symbolPart :=
        if o.strategy = .deep ∧ o.symbolKinds.getD [] ≠ [] then
          (symbolCandidatesOf h o u).flatMap fun sym =>
            match h.executeReferenceProvider u sym.position with
            | .error _ => []
            | .ok refs => refs.filter fun t => isAllowed h o t
        else []
      linkPart ++ importPart ++ symbolPart

/-! ### Depth-annotated (ghost) walk state

For the breadth-first-closure proof the visited set is annotated with the
depth at which each URI was first visited — ghost data the source does not
store (its visited set holds only the keys).  `eraseG` drops the
annotations; the annotated loop below mirrors `walkLoop` for unlimited
budgets node-for-node, which `processNode_budget0` makes precise. -/

/-- `WalkState` with the first-visit depth recorded alongside each visited
URI. -/
structure GState where
  gvisited : List (Uri × Nat)
  gqueue : List (Uri × Nat)
  gresults : List Uri
deriving DecidableEq, Repr

/-- `addToQueue` on the annotated state (membership ignores the ghost
depth, exactly as the source's string-keyed set does). -/
def gAdd (st : GState) (u : Uri) (d : Nat) : GState :=
  if (st.gvisited.map Prod.fst).contains u then st
  else
    { gvisited := (u, d) :: st.gvisited
      gqueue := st.gqueue ++ [(u, d)]
      gresults := if d > 0 then st.gresults ++ [u] else st.gresults }

/-- Forget the ghost depths. -/
def eraseG (g : GState) : WalkState :=
  ⟨g.gvisited.map Prod.fst, g.gqueue, g.gresults⟩

/-- The BFS loop on annotated states, for unlimited budgets (no file-count
check; with `maxFiles = 0` the source's check is vacuous). -/
def gWalkLoop (h : Host) (o : WalkerOptions) : Nat → GState → Option GState
  | 0, _ => Option.none
  | fuel + 1, st =>
    match st.gqueue with
    | [] => some st
    | (u, d) :: rest =>
      let st' := { st with gqueue := rest }
      if d ≥ o.maxDepth then gWalkLoop h o fuel st'
      else
        gWalkLoop h o fuel
          ((nodeCandidates h o u).foldl (fun s c => gAdd s c (d + 1)) st')

/-- Paths in the relation graph: `PathN h o u n v` says `v` is reachable
from `u` in exactly `n` candidate-discovery steps. -/
inductive PathN (h : Host) (o : WalkerOptions) : Uri → Nat → Uri → Prop where
  | refl (u : Uri) : PathN h o u 0 u
  | step {u : Uri} {n : Nat} {v w : Uri} :
      PathN h o u n v → w ∈ nodeCandidates h o v → PathN h o u (n + 1) w

/-- The relation graph has no (non-trivial) cycles. -/
def AcyclicRel (h : Host) (o : WalkerOptions) : Prop :=
  ∀ (u : Uri) (n : Nat), 0 < n → ¬ PathN h o u n u

/-! ## The Expansion Coordinator (`ContextManager.expandContext` and
`ContextExpansionStep.execute`) -/

/-- The config slice `ContextManager.expandContext` receives. -/
structure ExpandConfig where
  enabled : Bool
  strategy : AnalysisStrategy
  maxFiles : Nat
  excludePatterns : List String
deriving Repr

/-- Insertion into a JavaScript `Set` modelled as an insertion-ordered
duplicate-free list. -/
def insertNew (s : List Uri) (u : Uri) : List Uri :=
  if s.contains u then s else s ++ [u]

/-- The inner `for (const rUri of analysis.relatedUris)` loop of
`expandContext`: budget check before each candidate, then set insertion and
`addedCount` increment for fresh ones. -/
def expandInner (maxFiles : Nat) : List Uri → List Uri × Nat → List Uri × Nat
  | [], acc => acc
  | r :: rs, (s, n) =>
    if n ≥ maxFiles then (s, n)
    else if s.contains r then expandInner maxFiles rs (s, n)
    else expandInner maxFiles rs (s ++ [r], n + 1)

/-- The outer `for (const uri of initial)` loop of `expandContext`: budget
check before each seed, then one walk per seed.  `walkFn` stands for
`(await getImpactAnalysis(uri, config.strategy)).relatedUris`. -/
def expandSeeds (walkFn : Uri → List Uri) (maxFiles : Nat) :
    List Uri → List Uri × Nat → List Uri × Nat
  | [], acc => acc
  | u :: us, (s, n) =>
    if n ≥ maxFiles then (s, n)
    else expandSeeds walkFn maxFiles us (expandInner maxFiles (walkFn u) (s, n))

/-- `ContextManager.expandContext`: seed the working set with the initial
URIs, return it untouched when disabled or strategy `none`, otherwise merge
each seed's walk results under the `addedCount` budget. -/
def expandContext (walkFn : Uri → List Uri) (initial : List Uri) (cfg : ExpandConfig) :
    List Uri × Nat :=
  let finalUris := initial.foldl insertNew []
  if ¬ cfg.enabled ∨ cfg.strategy = .none then (finalUris, 0)
  else expandSeeds walkFn cfg.maxFiles initial (finalUris, 0)

/-- `vscode.FileType` (the values the step distinguishes). -/
inductive FileType where
  | file
  | directory
  | symbolicLink
deriving DecidableEq, Repr

/-- The file-system access the expansion step uses: `workspace.fs.stat`
(which may throw) and a raw recursive enumeration of a directory's
descendants together with their workspace-relative paths. -/
structure Fs where
  stat : Uri → Except Unit FileType
  descendants : Uri → List Uri
  relPath : Uri → String

/-- Modelled from the spec: `collectFileUrisByFs` is imported from
`src/core/utils.ts`, but the function itself is not present in the sources
here (only its call sites are).  Per §6 of the spec, directory members are
the recursively-contained **file** members, respecting the same exclusion
patterns; we model it as the directory's descendant files minus the ignored
ones. -/
def collectFileUrisByFs (fs : Fs) (dir : Uri) (excludePatterns : List String) : List Uri :=
  (fs.descendants dir).filter fun u =>
    (match fs.stat u with
     | .ok FileType.file => true
     | _ => false) &&
      ! isIgnored (fs.relPath u) excludePatterns

/-- The config slice `ContextExpansionStep.execute` reads. -/
structure StepConfig where
  autoExpand : Bool
  strategy : AnalysisStrategy
  maxFiles : Nat
  excludePatterns : List String
deriving Repr

/-- `Number.MAX_SAFE_INTEGER`, substituted for a zero `maxFiles` before
calling `expandContext`. -/
def MAX_SAFE_INTEGER : Nat := 2 ^ 53 - 1

/-- The post-walk candidate loop of `ContextExpansionStep.execute`: stat
each candidate (a throwing stat skips it), expand directories into their
collected file members, dedupe into `targets`.  The `seen` set always holds
exactly the URIs already in `targets`, so both are one insertion-ordered
list here. -/
def expandCandidates (fs : Fs) (excludePatterns : List String) :
    List Uri → List Uri → List Uri
  | [], targets => targets
  | uri :: rest, targets =>
    match fs.stat uri with
    | .error _ => expandCandidates fs excludePatterns rest targets
    | .ok ft =>
      if ft = FileType.directory then
        expandCandidates fs excludePatterns rest
          ((collectFileUrisByFs fs uri excludePatterns).foldl insertNew targets)
      else expandCandidates fs excludePatterns rest (insertNew targets uri)

/-- `ContextExpansionStep.execute`: run `expandContext` on the **raw**
initial URIs (directory seeds included), then stat/expand the merged set
into the final target list. -/
def contextExpansionStep (fs : Fs) (walkFn : Uri → List Uri) (cfg : StepConfig)
    (initialUris : List Uri) : List Uri :=
  if initialUris = [] then []
  else
    let enabled := cfg.strategy ≠ AnalysisStrategy.none
    if ¬ enabled ∧ ¬ cfg.autoExpand then initialUris
    else
      let effectiveMax := if cfg.maxFiles = 0 then MAX_SAFE_INTEGER else cfg.maxFiles
      let opts : ExpandConfig :=
        ⟨cfg.autoExpand, cfg.strategy, effectiveMax, cfg.excludePatterns⟩
      let expansion := expandContext walkFn initialUris opts
      expandCandidates fs cfg.excludePatterns expansion.1 []

/-- Modelled from the spec: the pipeline §6 describes, in which every
directory seed is expanded to its recursively-contained file members
*before* being handed to the Walker.  Used to compare the described
behaviour with `contextExpansionStep`. -/
def seedsExpandedFirst (fs : Fs) (excludePatterns : List String)
    (initialUris : List Uri) : List Uri :=
  initialUris.foldl
    (fun acc u =>
      match fs.stat u with
      | .ok FileType.directory => acc ++ collectFileUrisByFs fs u excludePatterns
      | _ => acc ++ [u])
    []

/-- Modelled from the spec: `ContextExpansionStep.execute` as the spec
describes it — identical to `contextExpansionStep` except that directory
seeds are expanded before the walk. -/
def specExpansionStep (fs : Fs) (walkFn : Uri → List Uri) (cfg : StepConfig)
    (initialUris : List Uri) : List Uri :=
  if initialUris = [] then []
  else
    let enabled := cfg.strategy ≠ AnalysisStrategy.none
    if ¬ enabled ∧ ¬ cfg.autoExpand then initialUris
    else
      let effectiveMax := if cfg.maxFiles = 0 then MAX_SAFE_INTEGER else cfg.maxFiles
      let opts : ExpandConfig :=
        ⟨cfg.autoExpand, cfg.strategy, effectiveMax, cfg.excludePatterns⟩
      let fileSeeds := seedsExpandedFirst fs cfg.excludePatterns initialUris
      let expansion := expandContext walkFn fileSeeds opts
      expandCandidates fs cfg.excludePatterns expansion.1 []

/-! ## Concrete fixtures

Small concrete hosts over a three-file workspace, used to evaluate the
engine on closed inputs (witnesses and counterexamples). -/

/-- Fixture file `a.ts`. -/
def exA : Uri := ⟨"file", "/w/a.ts"⟩

/-- Fixture file `b.ts`. -/
def exB : Uri := ⟨"file", "/w/b.ts"⟩

/-- Fixture file `c.ts`. -/
def exC : Uri := ⟨"file", "/w/c.ts"⟩

/-- A host whose providers all answer with nothing. -/
def exHostBase : Host :=
  { openTextDocument := fun _ => .ok ""
    executeLinkProvider := fun _ => .ok []
    executeDefinitionProvider := fun _ _ => .ok []
    executeDocumentSymbolProvider := fun _ => .ok (.docSymbols [])
    executeReferenceProvider := fun _ _ => .ok []
    getWorkspaceFolder := fun _ => some "w"
    asRelativePath := fun u => u.path }

/-- A cyclic link graph: `a.ts` links to `b.ts` and `b.ts` back to `a.ts`. -/
def exHostCyc : Host :=
  { exHostBase with
    executeLinkProvider := fun u =>
      if u = exA then .ok [⟨some exB⟩]
      else if u = exB then .ok [⟨some exA⟩]
      else .ok [] }

/-- `a.ts` links to both `b.ts` and `c.ts`. -/
def exHostTwo : Host :=
  { exHostBase with
    executeLinkProvider := fun u =>
      if u = exA then .ok [⟨some exB⟩, ⟨some exC⟩] else .ok [] }

/-- `a.ts` has no links but contains the relative import `'./b'`, whose
definition resolves to `b.ts`. -/
def exHostImp : Host :=
  { exHostBase with
    openTextDocument := fun u => if u = exA then .ok "x'./b'y" else .ok ""
    executeDefinitionProvider := fun u p =>
      if u = exA ∧ p = 2 then .ok [exB] else .ok [] }

/-- Like `exHostImp`, but the link provider throws on `a.ts`. -/
def exHostImpLinkErr : Host :=
  { exHostImp with
    executeLinkProvider := fun u => if u = exA then .error () else .ok [] }

/-- A host whose reference provider always throws. -/
def exHostRefErr : Host :=
  { exHostBase with executeReferenceProvider := fun _ _ => .error () }

/-- Fixture directory `/w/dir`. -/
def exDir : Uri := ⟨"file", "/w/dir"⟩

/-- Fixture file `/w/dir/f.ts` (the directory's only member). -/
def exF : Uri := ⟨"file", "/w/dir/f.ts"⟩

/-- Fixture file `/w/g.ts` (discovered by walking `f.ts`). -/
def exG : Uri := ⟨"file", "/w/g.ts"⟩

/-- A tiny file system: `exDir` is a directory containing `exF`; `exG` is a
file; everything else fails to stat. -/
def exFs : Fs :=
  { stat := fun u =>
      if u = exDir then .ok FileType.directory
      else if u = exF ∨ u = exG then .ok FileType.file
      else .error ()
    descendants := fun u => if u = exDir then [exF] else []
    relPath := fun u => u.path }

/-- A walk function for the coordinator fixtures: walking `f.ts` discovers
`g.ts`; walking anything else (the directory included — its document cannot
be opened) discovers nothing. -/
def exWalkFn : Uri → List Uri := fun u => if u = exF then [exG] else []

/-- Expansion-step configuration for the fixtures. -/
def exStepCfg : StepConfig :=
  { autoExpand := true
    strategy := .shallow
    maxFiles := 5
    excludePatterns := [] }

/-- Shallow-strategy walker options: depth cap 1, unlimited files. -/
def exOptsShallow : WalkerOptions :=
  { excludePatterns := []
    maxFiles := 0
    maxDepth := 1
    strategy := .shallow
    symbolKinds := Option.none }

/-! ## Generic walk-state machinery

Every state mutation `processNode` performs goes through `addToQueue`, with
an `isAllowed` guard and depth `currentDepth + 1 > 0`.  Invariants closed
under such guarded insertions therefore survive a whole walk. -/

section Machinery

variable (h : Host) (o : WalkerOptions)

/-! Step equations for the BFS loop. -/

lemma walkLoop_zero (st : WalkState) : walkLoop h o 0 st = Option.none := rfl

lemma walkLoop_nil {st : WalkState} (k : Nat) (hq : st.queue = []) :
    walkLoop h o (k + 1) st = some st := by
  simp only [walkLoop, hq]

lemma walkLoop_budget {st : WalkState} {u : Uri} {d : Nat} {rest : List (Uri × Nat)}
    (k : Nat) (hq : st.queue = (u, d) :: rest)
    (hbud : o.maxFiles > 0 ∧ st.results.length ≥ o.maxFiles) :
    walkLoop h o (k + 1) st = some st := by
  simp only [walkLoop, hq]
  rw [if_pos hbud]

lemma walkLoop_skip {st : WalkState} {u : Uri} {d : Nat} {rest : List (Uri × Nat)}
    (k : Nat) (hq : st.queue = (u, d) :: rest)
    (hbud : ¬(o.maxFiles > 0 ∧ st.results.length ≥ o.maxFiles))
    (hd : d ≥ o.maxDepth) :
    walkLoop h o (k + 1) st = walkLoop h o k { st with queue := rest } := by
  simp only [walkLoop, hq]
  rw [if_neg hbud, if_pos hd]

lemma walkLoop_proc {st : WalkState} {u : Uri} {d : Nat} {rest : List (Uri × Nat)}
    (k : Nat) (hq : st.queue = (u, d) :: rest)
    (hbud : ¬(o.maxFiles > 0 ∧ st.results.length ≥ o.maxFiles))
    (hd : ¬ d ≥ o.maxDepth) :
    walkLoop h o (k + 1) st =
      walkLoop h o k (processNode h o { st with queue := rest } u d) := by
  simp only [walkLoop, hq]
  rw [if_neg hbud, if_neg hd]

/-- A predicate on walk states closed under every guarded, positive-depth
`addToQueue` call (the only state mutations occurring inside
`processNode`). -/
def GoodStep (P : WalkState → Prop) : Prop :=
  ∀ st u d, P st → isAllowed h o u = true → 0 < d → P (addToQueue st u d)

lemma foldl_pres {α : Type _} {P : WalkState → Prop} {f : WalkState → α → WalkState}
    (hf : ∀ s a, P s → P (f s a)) :
    ∀ (l : List α) (s : WalkState), P s → P (l.foldl f s) := by
  intro l
  induction l with
  | nil => intro s hs; simpa using hs
  | cons a l ih =>
    intro s hs
    simpa using ih (f s a) (hf s a hs)

lemma refsLoop_pres {P : WalkState → Prop} (hP : GoodStep h o P) (d : Nat) :
    ∀ (refs : List Uri) (st : WalkState), P st → P (refsLoop h o d refs st) := by
  intro refs
  induction refs with
  | nil => intro st hst; simpa [refsLoop] using hst
  | cons r rs ih =>
    intro st hst
    rw [refsLoop]
    split
    · exact hst
    · apply ih
      by_cases hall : isAllowed h o r = true
      · simpa [hall] using hP st r (d + 1) hst hall (Nat.succ_pos d)
      · simpa [hall] using hst

lemma symbolsLoop_pres {P : WalkState → Prop} (hP : GoodStep h o P) (u : Uri) (d : Nat) :
    ∀ (syms : List SymEntry) (st : WalkState), P st → P (symbolsLoop h o u d syms st) := by
  intro syms
  induction syms with
  | nil => intro st hst; simpa [symbolsLoop] using hst
  | cons s rest ih =>
    intro st hst
    rw [symbolsLoop]
    split
    · exact hst
    · apply ih
      cases hr : h.executeReferenceProvider u s.position with
      | error e => simpa [hr] using hst
      | ok refs => simpa [hr] using refsLoop_pres h o hP d refs st hst

lemma resolveSymbolReferences_pres {P : WalkState → Prop} (hP : GoodStep h o P)
    (st : WalkState) (u : Uri) (d : Nat) (hst : P st) :
    P (resolveSymbolReferences h o st u d) := by
  rw [resolveSymbolReferences]
  split
  · exact hst
  · cases hr : h.executeDocumentSymbolProvider u with
    | error e => exact hst
    | ok resp =>
      cases hk : o.symbolKinds with
      | none => exact hst
      | some allowed =>
        simp only
        split
        · exact hst
        · exact symbolsLoop_pres h o hP u d _ st hst

lemma resolveRelativeImports_pres {P : WalkState → Prop} (hP : GoodStep h o P)
    (st : WalkState) (text : String) (u : Uri) (d : Nat) (hst : P st) :
    P (resolveRelativeImports h o st text u d) := by
  rw [resolveRelativeImports]
  apply foldl_pres _ _ _ hst
  intro s pos hs
  cases hd : h.executeDefinitionProvider u pos with
  | error e => simpa [hd] using hs
  | ok locs =>
    simp only [hd]
    apply foldl_pres _ _ _ hs
    intro s2 t hs2
    by_cases hall : isAllowed h o t = true
    · simpa [hall] using hP s2 t (d + 1) hs2 hall (Nat.succ_pos d)
    · simpa [hall] using hs2

lemma processNode_pres {P : WalkState → Prop} (hP : GoodStep h o P)
    (st : WalkState) (u : Uri) (d : Nat) (hst : P st) :
    P (processNode h o st u d) := by
  rw [processNode]
  cases ho : h.openTextDocument u with
  | error e => exact hst
  | ok text =>
    cases hl : h.executeLinkProvider u with
    | error e => exact hst
    | ok links =>
      simp only
      have h1 : P (links.foldl
          (fun s link =>
            match link.target with
            | Option.none => s
            | Option.some t =>
              if isAllowed h o t then addToQueue s t (d + 1) else s) st) := by
        apply foldl_pres _ _ _ hst
        intro s link hs
        cases link.target with
        | none => simpa using hs
        | some t =>
          by_cases hall : isAllowed h o t = true
          · simpa [hall] using hP s t (d + 1) hs hall (Nat.succ_pos d)
          · simpa [hall] using hs
      have h2 : P (resolveRelativeImports h o _ text u d) :=
        resolveRelativeImports_pres h o hP _ text u d h1
      split
      · exact resolveSymbolReferences_pres h o hP _ u d h2
      · exact h2

lemma walkLoop_pres {P : WalkState → Prop} (hP : GoodStep h o P)
    (hPop : ∀ st rest, P st → P { st with queue := rest }) :
    ∀ (fuel : Nat) (st fin : WalkState), P st →
      walkLoop h o fuel st = some fin → P fin := by
  intro fuel
  induction fuel with
  | zero => intro st fin _ hw; simp [walkLoop] at hw
  | succ n ih =>
    intro st fin hst hw
    rw [walkLoop] at hw
    split at hw
    · cases hw; exact hst
    · split at hw
      · cases hw; exact hst
      · split at hw
        · exact ih _ fin (hPop st _ hst) hw
        · exact ih _ fin (processNode_pres h o hP _ _ _ (hPop st _ hst)) hw

/-- The walk invariants needed for the duplicate-freedom, seed-exclusion and
scheme claims. -/
structure WalkInv (seed : Uri) (st : WalkState) : Prop where
  res_sub_vis : ∀ u ∈ st.results, u ∈ st.visited
  res_nodup : st.results.Nodup
  seed_vis : seed ∈ st.visited
  seed_not_res : seed ∉ st.results
  res_allowed : ∀ u ∈ st.results, isAllowed h o u = true

lemma addToQueue_visited_of_mem {st : WalkState} {u : Uri} {d : Nat}
    (hv : u ∈ st.visited) : addToQueue st u d = st := by
  simp [addToQueue, hv]

lemma addToQueue_not_mem {st : WalkState} {u : Uri} {d : Nat}
    (hv : u ∉ st.visited) :
    addToQueue st u d =
      { visited := u :: st.visited
        queue := st.queue ++ [(u, d)]
        results := if d > 0 then st.results ++ [u] else st.results } := by
  simp [addToQueue, hv]

lemma walkInv_goodStep (seed : Uri) : GoodStep h o (WalkInv h o seed) := by
  intro st u d hst hall hd
  by_cases hv : u ∈ st.visited
  · rw [addToQueue_visited_of_mem hv]; exact hst
  · rw [addToQueue_not_mem hv]
    have hd' : d > 0 := hd
    have hur : u ∉ st.results := fun hc => hv (hst.res_sub_vis u hc)
    refine ⟨?_, ?_, ?_, ?_, ?_⟩
    · intro x hx
      simp only [hd', if_true, List.mem_append, List.mem_singleton] at hx
      rcases hx with hx | hx
      · exact List.mem_cons_of_mem _ (hst.res_sub_vis x hx)
      · simp [hx]
    · simp only [hd', if_true]
      exact List.Nodup.append hst.res_nodup (List.nodup_singleton u)
        (by intro a ha hau; simp only [List.mem_singleton] at hau; exact hur (hau ▸ ha))
    · exact List.mem_cons_of_mem _ hst.seed_vis
    · simp only [hd', if_true, List.mem_append, List.mem_singleton]
      rintro (hc | hc)
      · exact hst.seed_not_res hc
      · exact hv (hc ▸ hst.seed_vis)
    · intro x hx
      simp only [hd', if_true, List.mem_append, List.mem_singleton] at hx
      rcases hx with hx | hx
      · exact hst.res_allowed x hx
      · exact hx ▸ hall

lemma walkInv_init (seed : Uri) : WalkInv h o seed (addToQueue ⟨[], [], []⟩ seed 0) := by
  refine ⟨?_, ?_, ?_, ?_, ?_⟩ <;> simp [addToQueue]

lemma walk_inv (seed : Uri) (fuel : Nat) (res : List Uri)
    (hw : walk h o fuel seed = some res) :
    ∃ fin : WalkState, WalkInv h o seed fin ∧ fin.results = res := by
  unfold walk at hw
  cases hl : walkLoop h o fuel (addToQueue ⟨[], [], []⟩ seed 0) with
  | none => simp [hl] at hw
  | some fin =>
    refine ⟨fin, ?_, ?_⟩
    · exact walkLoop_pres h o (walkInv_goodStep h o seed)
        (fun st rest hst =>
          ⟨hst.res_sub_vis, hst.res_nodup, hst.seed_vis, hst.seed_not_res, hst.res_allowed⟩)
        fuel _ fin (walkInv_init h o seed) hl
    · simp [hl] at hw
      exact hw

/-! ### Step normal form

Processing one node extends the state by a list `E` of fresh URIs — each
marked visited, enqueued at the same depth, and appended to the results —
all drawn from the node's candidate list. -/

/-- `st'` extends `st` by some fresh adds at depth `d`, drawn from `S`. -/
def ExtendsBy (S : List Uri) (d : Nat) (st st' : WalkState) : Prop :=
  ∃ E : List Uri,
    st'.visited = E.reverse ++ st.visited ∧
    st'.queue = st.queue ++ E.map (fun u => (u, d)) ∧
    st'.results = st.results ++ E ∧
    E.Nodup ∧ ∀ x ∈ E, x ∉ st.visited ∧ x ∈ S

lemma extendsBy_refl (S : List Uri) (d : Nat) (st : WalkState) : ExtendsBy S d st st :=
  ⟨[], by simp, by simp, by simp, List.nodup_nil, by simp⟩

lemma extendsBy_mono {S S' : List Uri} {d : Nat} {st st' : WalkState}
    (hss : ∀ x ∈ S, x ∈ S') (hx : ExtendsBy S d st st') : ExtendsBy S' d st st' := by
  obtain ⟨E, h1, h2, h3, h4, h5⟩ := hx
  exact ⟨E, h1, h2, h3, h4, fun x hxE => ⟨(h5 x hxE).1, hss x (h5 x hxE).2⟩⟩

lemma extendsBy_add {S : List Uri} {d : Nat} {st st' : WalkState} {x : Uri}
    (hd : 0 < d) (hxS : x ∈ S) (he : ExtendsBy S d st st') :
    ExtendsBy S d st (addToQueue st' x d) := by
  obtain ⟨E, h1, h2, h3, h4, h5⟩ := he
  by_cases hv : x ∈ st'.visited
  · rw [addToQueue_visited_of_mem hv]; exact ⟨E, h1, h2, h3, h4, h5⟩
  · rw [addToQueue_not_mem hv]
    have hxE : x ∉ E := fun hc =>
      hv (h1 ▸ List.mem_append_left _ (List.mem_reverse.mpr hc))
    have hxStVis : x ∉ st.visited := fun hc => hv (h1 ▸ List.mem_append_right _ hc)
    refine ⟨E ++ [x], ?_, ?_, ?_, ?_, ?_⟩
    · simp [h1]
    · simp [h2]
    · simp [h3, hd]
    · simp [List.nodup_append, h4, hxE]
    · intro y hy
      rcases List.mem_append.mp hy with hy | hy
      · exact h5 y hy
      · simp only [List.mem_singleton] at hy
        exact hy ▸ ⟨hxStVis, hxS⟩

lemma extendsBy_trans {S : List Uri} {d : Nat} {st st' st'' : WalkState}
    (h1 : ExtendsBy S d st st') (h2 : ExtendsBy S d st' st'') :
    ExtendsBy S d st st'' := by
  obtain ⟨E1, a1, a2, a3, a4, a5⟩ := h1
  obtain ⟨E2, b1, b2, b3, b4, b5⟩ := h2
  refine ⟨E1 ++ E2, ?_, ?_, ?_, ?_, ?_⟩
  · simp [b1, a1]
  · simp [b2, a2]
  · simp [b3, a3]
  · rw [List.nodup_append]
    refine ⟨a4, b4, ?_⟩
    intro x hx1 hx2
    exact (b5 x hx2).1 (a1 ▸ List.mem_append_left _ (List.mem_reverse.mpr hx1))
  · intro x hx
    rcases List.mem_append.mp hx with hx | hx
    · exact a5 x hx
    · exact ⟨fun hc => (b5 x hx).1 (a1 ▸ List.mem_append_right _ hc), (b5 x hx).2⟩

lemma refsLoop_extends (d : Nat) :
    ∀ (refs : List Uri) (st : WalkState),
      ExtendsBy (refs.filter fun t => isAllowed h o t) (d + 1) st
        (refsLoop h o d refs st) := by
  intro refs
  induction refs with
  | nil => intro st; exact extendsBy_refl _ _ _
  | cons r rs ih =>
    intro st
    rw [refsLoop]
    split
    · exact extendsBy_refl _ _ _
    · by_cases hall : isAllowed h o r = true
      · simp only [hall, if_true]
        have hstep : ExtendsBy ((r :: rs).filter fun t => isAllowed h o t) (d + 1) st
            (addToQueue st r (d + 1)) :=
          extendsBy_add (Nat.succ_pos d) (List.mem_filter.mpr ⟨List.mem_cons_self r rs, hall⟩)
            (extendsBy_refl _ _ _)
        refine extendsBy_trans hstep ?_
        exact extendsBy_mono
          (fun x hx => by
            rcases List.mem_filter.mp hx with ⟨hm, hp⟩
            exact List.mem_filter.mpr ⟨List.mem_cons_of_mem _ hm, hp⟩)
          (ih (addToQueue st r (d + 1)))
      · simp only [Bool.not_eq_true] at hall
        simp only [hall, Bool.false_eq_true, if_false]
        exact extendsBy_mono
          (fun x hx => by
            rcases List.mem_filter.mp hx with ⟨hm, hp⟩
            exact List.mem_filter.mpr ⟨List.mem_cons_of_mem _ hm, hp⟩)
          (ih st)

lemma symbolsLoop_extends (u : Uri) (d : Nat) :
    ∀ (syms : List SymEntry) (st : WalkState),
      ExtendsBy
        (syms.flatMap fun sym =>
          match h.executeReferenceProvider u sym.position with
          | .error _ => []
          | .ok refs => refs.filter fun t => isAllowed h o t)
        (d + 1) st (symbolsLoop h o u d syms st) := by
  intro syms
  induction syms with
  | nil => intro st; exact extendsBy_refl _ _ _
  | cons sym rest ih =>
    intro st
    rw [symbolsLoop]
    split
    · exact extendsBy_refl _ _ _
    · have hsub : ∀ (l : List Uri), (∀ x ∈ l,
          x ∈ (match h.executeReferenceProvider u sym.position with
               | .error _ => []
               | .ok refs => refs.filter fun t => isAllowed h o t)) →
          ∀ x ∈ l, x ∈ ((sym :: rest).flatMap fun sym =>
            match h.executeReferenceProvider u sym.position with
            | .error _ => []
            | .ok refs => refs.filter fun t => isAllowed h o t) := by
        intro l hl x hx
        rw [List.flatMap_cons]
        exact List.mem_append_left _ (hl x hx)
      cases hr : h.executeReferenceProvider u sym.position with
      | error e =>
        refine extendsBy_trans (extendsBy_refl _ _ st) ?_
        refine extendsBy_mono ?_ (ih st)
        intro x hx
        rw [List.flatMap_cons]
        exact List.mem_append_right _ hx
      | ok refs =>
        have h1 : ExtendsBy ((sym :: rest).flatMap fun sym =>
            match h.executeReferenceProvider u sym.position with
            | .error _ => []
            | .ok refs => refs.filter fun t => isAllowed h o t) (d + 1) st
            (refsLoop h o d refs st) := by
          refine extendsBy_mono ?_ (refsLoop_extends h o d refs st)
          intro x hx
          rw [List.flatMap_cons, hr]
          exact List.mem_append_left _ hx
        refine extendsBy_trans h1 ?_
        refine extendsBy_mono ?_ (ih _)
        intro x hx
        rw [List.flatMap_cons]
        exact List.mem_append_right _ hx

lemma resolveSymbolReferences_extends (st : WalkState) (u : Uri) (d : Nat) :
    ExtendsBy
      ((symbolCandidatesOf h o u).flatMap fun sym =>
        match h.executeReferenceProvider u sym.position with
        | .error _ => []
        | .ok refs => refs.filter fun t => isAllowed h o t)
      (d + 1) st (resolveSymbolReferences h o st u d) := by
  rw [resolveSymbolReferences]
  split
  · exact extendsBy_refl _ _ _
  · cases hs : h.executeDocumentSymbolProvider u with
    | error e => exact extendsBy_refl _ _ _
    | ok resp =>
      cases hk : o.symbolKinds with
      | none => exact extendsBy_refl _ _ _
      | some allowed =>
        simp only
        split
        · exact extendsBy_refl _ _ _
        · rename_i hne
          have hcand : symbolCandidatesOf h o u =
              ((symbolEntriesOf resp).filter fun e =>
                allowed.contains e.kind).take MAX_SYMBOLS_PER_FILE := by
            rw [symbolCandidatesOf, hs, hk]
            simp [hne]
          rw [← hcand]
          exact symbolsLoop_extends h o u d _ st

lemma locsFold_extends (d : Nat) :
    ∀ (locs : List Uri) (st : WalkState),
      ExtendsBy (locs.filter fun t => isAllowed h o t) (d + 1) st
        (locs.foldl
          (fun s2 targetUri =>
            if isAllowed h o targetUri then addToQueue s2 targetUri (d + 1) else s2)
          st) := by
  intro locs
  induction locs with
  | nil => intro st; exact extendsBy_refl _ _ _
  | cons t ts ih =>
    intro st
    simp only [List.foldl_cons]
    have htail : ∀ x ∈ ts.filter fun t => isAllowed h o t,
        x ∈ (t :: ts).filter fun t => isAllowed h o t := by
      intro x hx
      rcases List.mem_filter.mp hx with ⟨hm, hp⟩
      exact List.mem_filter.mpr ⟨List.mem_cons_of_mem _ hm, hp⟩
    by_cases hall : isAllowed h o t = true
    · simp only [hall, if_true]
      have hstep : ExtendsBy ((t :: ts).filter fun t => isAllowed h o t) (d + 1) st
          (addToQueue st t (d + 1)) :=
        extendsBy_add (Nat.succ_pos d) (List.mem_filter.mpr ⟨List.mem_cons_self t ts, hall⟩)
          (extendsBy_refl _ _ _)
      exact extendsBy_trans hstep (extendsBy_mono htail (ih _))
    · simp only [Bool.not_eq_true] at hall
      simp only [hall, Bool.false_eq_true, if_false]
      exact extendsBy_mono htail (ih st)

lemma resolveRelativeImports_extends (st : WalkState) (text : String) (u : Uri) (d : Nat) :
    ExtendsBy
      ((scanImports text.toList 0).flatMap fun pos =>
        match h.executeDefinitionProvider u pos with
        | .error _ => []
        | .ok locs => locs.filter fun t => isAllowed h o t)
      (d + 1) st (resolveRelativeImports h o st text u d) := by
  rw [resolveRelativeImports]
  generalize scanImports text.toList 0 = offs
  induction offs generalizing st with
  | nil => exact extendsBy_refl _ _ _
  | cons pos rest ih =>
    simp only [List.foldl_cons]
    have htail : ∀ x ∈ (rest.flatMap fun pos =>
        match h.executeDefinitionProvider u pos with
        | .error _ => []
        | .ok locs => locs.filter fun t => isAllowed h o t),
        x ∈ ((pos :: rest).flatMap fun pos =>
          match h.executeDefinitionProvider u pos with
          | .error _ => []
          | .ok locs => locs.filter fun t => isAllowed h o t) := by
      intro x hx
      rw [List.flatMap_cons]
      exact List.mem_append_right _ hx
    cases hd : h.executeDefinitionProvider u pos with
    | error e =>
      simp only [hd]
      exact extendsBy_mono htail (ih _)
    | ok locs =>
      simp only [hd]
      have h1 : ExtendsBy ((pos :: rest).flatMap fun pos =>
          match h.executeDefinitionProvider u pos with
          | .error _ => []
          | .ok locs => locs.filter fun t => isAllowed h o t) (d + 1) st
          (locs.foldl
            (fun s2 targetUri =>
              if isAllowed h o targetUri then addToQueue s2 targetUri (d + 1) else s2)
            st) := by
        refine extendsBy_mono ?_ (locsFold_extends h o d locs st)
        intro x hx
        rw [List.flatMap_cons, hd]
        exact List.mem_append_left _ hx
      exact extendsBy_trans h1 (extendsBy_mono htail (ih _))

lemma linksFold_extends (st : WalkState) (links : List DocumentLink) (d : Nat) :
    ExtendsBy ((links.filterMap DocumentLink.target).filter fun t => isAllowed h o t)
      (d + 1) st
      (links.foldl
        (fun s link =>
          match link.target with
          | Option.none => s
          | Option.some t =>
            if isAllowed h o t then addToQueue s t (d + 1) else s)
        st) := by
  induction links generalizing st with
  | nil => exact extendsBy_refl _ _ _
  | cons link rest ih =>
    simp only [List.foldl_cons]
    have htail : ∀ x ∈ (rest.filterMap DocumentLink.target).filter fun t => isAllowed h o t,
        x ∈ ((link :: rest).filterMap DocumentLink.target).filter fun t => isAllowed h o t := by
      intro x hx
      rcases List.mem_filter.mp hx with ⟨hm, hp⟩
      refine List.mem_filter.mpr ⟨?_, hp⟩
      rcases List.mem_filterMap.mp hm with ⟨l, hl, hlt⟩
      exact List.mem_filterMap.mpr ⟨l, List.mem_cons_of_mem _ hl, hlt⟩
    cases hlt : link.target with
    | none => simp only; exact extendsBy_mono htail (ih _)
    | some t =>
      simp only
      by_cases hall : isAllowed h o t = true
      · simp only [hall, if_true]
        have htmem : t ∈ ((link :: rest).filterMap DocumentLink.target).filter
            fun t => isAllowed h o t :=
          List.mem_filter.mpr
            ⟨List.mem_filterMap.mpr ⟨link, List.mem_cons_self _ _, hlt⟩, hall⟩
        exact extendsBy_trans
          (extendsBy_add (Nat.succ_pos d) htmem (extendsBy_refl _ _ _))
          (extendsBy_mono htail (ih _))
      · simp only [Bool.not_eq_true] at hall
        simp only [hall, Bool.false_eq_true, if_false]
        exact extendsBy_mono htail (ih st)

lemma processNode_extends (st : WalkState) (u : Uri) (d : Nat) :
    ExtendsBy (nodeCandidates h o u) (d + 1) st (processNode h o st u d) := by
  rw [processNode, nodeCandidates]
  cases ho : h.openTextDocument u with
  | error e => exact extendsBy_refl _ _ _
  | ok text =>
    cases hl : h.executeLinkProvider u with
    | error e => exact extendsBy_refl _ _ _
    | ok links =>
      simp only
      by_cases hdeep : o.strategy = AnalysisStrategy.deep ∧ o.symbolKinds.getD [] ≠ []
      · rw [if_pos hdeep, if_pos hdeep]
        refine extendsBy_trans (extendsBy_trans
          (extendsBy_mono (fun x hx => List.mem_append_left _ (List.mem_append_left _ hx))
            (linksFold_extends h o st links d))
          (extendsBy_mono (fun x hx => List.mem_append_left _ (List.mem_append_right _ hx))
            (resolveRelativeImports_extends h o _ text u d))) ?_
        exact extendsBy_mono (fun x hx => List.mem_append_right _ hx)
          (resolveSymbolReferences_extends h o _ u d)
      · rw [if_neg hdeep, if_neg hdeep]
        exact extendsBy_trans
          (extendsBy_mono (fun x hx => List.mem_append_left _ (List.mem_append_left _ hx))
            (linksFold_extends h o st links d))
          (extendsBy_mono (fun x hx => List.mem_append_left _ (List.mem_append_right _ hx))
            (resolveRelativeImports_extends h o _ text u d))

/-! ### Termination -/

/-- The invariant driving the termination measure: the visited list is
duplicate-free and confined to the finite closed universe `U`, and every
queued URI is visited. -/
structure TermInv (U : Finset Uri) (st : WalkState) : Prop where
  vis_nodup : st.visited.Nodup
  vis_sub : ∀ x ∈ st.visited, x ∈ U
  queue_sub : ∀ e ∈ st.queue, e.1 ∈ st.visited

lemma nodup_subset_length_le (l : List Uri) (U : Finset Uri)
    (hn : l.Nodup) (hsub : ∀ x ∈ l, x ∈ U) : l.length ≤ U.card := by
  classical
  have h1 : l.toFinset.card = l.length := List.toFinset_card_of_nodup hn
  have h2 : l.toFinset ⊆ U := fun x hx => hsub x (List.mem_toFinset.mp hx)
  calc l.length = l.toFinset.card := h1.symm
    _ ≤ U.card := Finset.card_le_card h2

/-- Each loop iteration dequeues one entry and adds `|E|` fresh entries to
both the queue and the visited set, so the measure
`|queue| + (|U| - |visited|)` drops by exactly one: fuel exceeding the
initial measure makes the loop run to completion. -/
lemma walkLoop_terminates (U : Finset Uri)
    (hU : ∀ x ∈ U, ∀ y ∈ nodeCandidates h o x, y ∈ U) :
    ∀ (n : Nat) (st : WalkState), TermInv U st →
      st.queue.length + (U.card - st.visited.length) < n →
      ∃ fin, walkLoop h o n st = some fin := by
  intro n
  induction n with
  | zero => intro st _ hm; omega
  | succ k ih =>
    intro st hinv hm
    cases hq : st.queue with
    | nil => exact ⟨st, walkLoop_nil h o k hq⟩
    | cons e rest =>
      obtain ⟨u, depth⟩ := e
      rw [hq] at hm
      simp only [List.length_cons] at hm
      have huvis : u ∈ st.visited := hinv.queue_sub (u, depth) (hq ▸ List.mem_cons_self _ _)
      have huU : u ∈ U := hinv.vis_sub u huvis
      have hvlen : st.visited.length ≤ U.card :=
        nodup_subset_length_le _ U hinv.vis_nodup hinv.vis_sub
      by_cases hbud : o.maxFiles > 0 ∧ st.results.length ≥ o.maxFiles
      · exact ⟨st, walkLoop_budget h o k hq hbud⟩
      · by_cases hdep : depth ≥ o.maxDepth
        · rw [walkLoop_skip h o k hq hbud hdep]
          apply ih
          · exact ⟨hinv.vis_nodup, hinv.vis_sub,
              fun e he => hinv.queue_sub e (hq ▸ List.mem_cons_of_mem _ he)⟩
          · simp only
            omega
        · rw [walkLoop_proc h o k hq hbud hdep]
          obtain ⟨E, h1, h2, h3, h4, h5⟩ :=
            processNode_extends h o { st with queue := rest } u depth
          have hEU : ∀ x ∈ E, x ∈ U := fun x hx => hU u huU x (h5 x hx).2
          have hvis' : (processNode h o { st with queue := rest } u depth).visited.Nodup := by
            rw [h1, List.nodup_append]
            exact ⟨List.nodup_reverse.mpr h4, hinv.vis_nodup,
              fun a ha hav => (h5 a (List.mem_reverse.mp ha)).1 hav⟩
          have hvsub' : ∀ x ∈ (processNode h o { st with queue := rest } u depth).visited,
              x ∈ U := by
            intro x hx
            rw [h1] at hx
            rcases List.mem_append.mp hx with hx | hx
            · exact hEU x (List.mem_reverse.mp hx)
            · exact hinv.vis_sub x hx
          apply ih
          · refine ⟨hvis', hvsub', ?_⟩
            intro e he
            rw [h2] at he
            rcases List.mem_append.mp he with he | he
            · exact h1 ▸ List.mem_append_right _
                (hinv.queue_sub e (hq ▸ List.mem_cons_of_mem _ he))
            · rcases List.mem_map.mp he with ⟨x, hxE, hxe⟩
              exact h1 ▸ List.mem_append_left _
                (List.mem_reverse.mpr (hxe ▸ hxE))
          · have hlen1 : (processNode h o { st with queue := rest } u depth).queue.length
                = rest.length + E.length := by
              rw [h2]; simp
            have hlen2 : (processNode h o { st with queue := rest } u depth).visited.length
                = E.length + st.visited.length := by
              rw [h1]; simp
            have hvlen2 : E.length + st.visited.length ≤ U.card := by
              have := nodup_subset_length_le _ U hvis' hvsub'
              omega
            omega

/-! ### Per-node budget overshoot bound -/

lemma walkLoop_results_bound (B : Nat)
    (hB : ∀ u : Uri, (nodeCandidates h o u).length ≤ B) (hmf : 0 < o.maxFiles) :
    ∀ (n : Nat) (st fin : WalkState), walkLoop h o n st = some fin →
      fin.results.length ≤ max st.results.length (o.maxFiles - 1 + B) := by
  intro n
  induction n with
  | zero => intro st fin hw; simp [walkLoop_zero] at hw
  | succ k ih =>
    intro st fin hw
    rcases hq : st.queue with _ | ⟨⟨u, depth⟩, rest⟩
    · rw [walkLoop_nil h o k hq] at hw
      cases hw; exact le_max_left _ _
    · by_cases hbud : o.maxFiles > 0 ∧ st.results.length ≥ o.maxFiles
      · rw [walkLoop_budget h o k hq hbud] at hw
        cases hw; exact le_max_left _ _
      · by_cases hdep : depth ≥ o.maxDepth
        · rw [walkLoop_skip h o k hq hbud hdep] at hw
          exact ih { st with queue := rest } fin hw
        · rw [walkLoop_proc h o k hq hbud hdep] at hw
          have hfin := ih _ fin hw
          obtain ⟨E, h1, h2, h3, h4, h5⟩ :=
            processNode_extends h o { st with queue := rest } u depth
          have hlen : (processNode h o { st with queue := rest } u depth).results.length
              = st.results.length + E.length := by
            rw [h3]; simp
          have hE : E.length ≤ B := by
            calc E.length = E.toFinset.card := (List.toFinset_card_of_nodup h4).symm
              _ ≤ (nodeCandidates h o u).toFinset.card :=
                  Finset.card_le_card
                    (fun x hx => List.mem_toFinset.mpr (h5 x (List.mem_toFinset.mp hx)).2)
              _ ≤ (nodeCandidates h o u).length := List.toFinset_card_le _
              _ ≤ B := hB u
          have hst : st.results.length < o.maxFiles := by
            by_contra hc
            push_neg at hc
            exact hbud ⟨hmf, hc⟩
          have hbound : (processNode h o { st with queue := rest } u depth).results.length
              ≤ o.maxFiles - 1 + B := by omega
          have := max_le hbound (le_refl (o.maxFiles - 1 + B))
          exact le_trans (le_trans hfin (by omega : max
            (processNode h o { st with queue := rest } u depth).results.length
            (o.maxFiles - 1 + B) ≤ o.maxFiles - 1 + B)) (le_max_right _ _)

/-! ### Processing a node with an unlimited budget

With `maxFiles = 0` every budget guard in `processNode` is off, and the
node's effect is exactly a fold of `addToQueue` over its candidate list —
also when providers fail, since a failing provider contributes the same
nothing to the state and to the candidate list. -/

lemma foldl_guard_filter {α : Type _} (p : α → Bool) (g : WalkState → α → WalkState) :
    ∀ (l : List α) (st : WalkState),
      l.foldl (fun s x => if p x then g s x else s) st = (l.filter p).foldl g st := by
  intro l
  induction l with
  | nil => intro st; rfl
  | cons x xs ih =>
    intro st
    by_cases hp : p x
    · simp only [List.foldl_cons, hp, if_true, List.filter_cons_of_pos hp]
      exact ih _
    · simp only [Bool.not_eq_true] at hp
      simp only [List.foldl_cons, hp, Bool.false_eq_true, if_false, List.filter_cons]
      exact ih _

lemma linksFold_budget0 (st : WalkState) (links : List DocumentLink) (d : Nat) :
    links.foldl
      (fun s link =>
        match link.target with
        | Option.none => s
        | Option.some t => if isAllowed h o t then addToQueue s t (d + 1) else s) st =
    ((links.filterMap DocumentLink.target).filter fun t => isAllowed h o t).foldl
      (fun s c => addToQueue s c (d + 1)) st := by
  induction links generalizing st with
  | nil => rfl
  | cons l ls ih =>
    cases hlt : l.target with
    | none =>
      simp only [List.foldl_cons, hlt, List.filterMap_cons_none hlt]
      exact ih _
    | some t =>
      simp only [List.foldl_cons, hlt, List.filterMap_cons_some hlt]
      by_cases hall : isAllowed h o t = true
      · simp only [hall, if_true, List.filter_cons_of_pos hall]
        simp only [List.foldl_cons]
        exact ih _
      · simp only [Bool.not_eq_true] at hall
        simp only [hall, Bool.false_eq_true, if_false, List.filter_cons]
        exact ih _

lemma importsFold_budget0 (u : Uri) (d : Nat) :
    ∀ (offs : List Nat) (st : WalkState),
      offs.foldl
        (fun s pos =>
          match h.executeDefinitionProvider u pos with
          | .error _ => s
          | .ok locations =>
            locations.foldl
              (fun s2 targetUri =>
                if isAllowed h o targetUri then addToQueue s2 targetUri (d + 1) else s2)
              s) st =
      (offs.flatMap fun pos =>
        match h.executeDefinitionProvider u pos with
        | .error _ => []
        | .ok locs => locs.filter fun t => isAllowed h o t).foldl
        (fun s c => addToQueue s c (d + 1)) st := by
  intro offs
  induction offs with
  | nil => intro st; rfl
  | cons pos rest ih =>
    intro st
    simp only [List.foldl_cons, List.flatMap_cons, List.foldl_append]
    cases hdp : h.executeDefinitionProvider u pos with
    | error e =>
      dsimp only
      exact ih _
    | ok locs =>
      dsimp only
      rw [foldl_guard_filter]
      exact ih _

lemma refsLoop_budget0 (hmf : o.maxFiles = 0) (d : Nat) :
    ∀ (refs : List Uri) (st : WalkState),
      refsLoop h o d refs st =
        (refs.filter fun t => isAllowed h o t).foldl (fun s c => addToQueue s c (d + 1)) st := by
  intro refs
  induction refs with
  | nil => intro st; rfl
  | cons r rs ih =>
    intro st
    rw [refsLoop, if_neg (by simp [hmf])]
    by_cases hall : isAllowed h o r = true
    · simp only [hall, if_true, List.filter_cons_of_pos hall, List.foldl_cons]
      exact ih _
    · simp only [Bool.not_eq_true] at hall
      simp only [hall, Bool.false_eq_true, if_false, List.filter_cons]
      exact ih _

lemma symbolsLoop_budget0 (hmf : o.maxFiles = 0) (u : Uri) (d : Nat) :
    ∀ (syms : List SymEntry) (st : WalkState),
      symbolsLoop h o u d syms st =
        (syms.flatMap fun sym =>
          match h.executeReferenceProvider u sym.position with
          | .error _ => []
          | .ok refs => refs.filter fun t => isAllowed h o t).foldl
          (fun s c => addToQueue s c (d + 1)) st := by
  intro syms
  induction syms with
  | nil => intro st; rfl
  | cons sym rest ih =>
    intro st
    rw [symbolsLoop, if_neg (by simp [hmf])]
    simp only [List.flatMap_cons, List.foldl_append]
    cases hr : h.executeReferenceProvider u sym.position with
    | error e =>
      dsimp only
      rw [ih]
      rfl
    | ok refs =>
      dsimp only
      rw [ih, refsLoop_budget0 h o hmf d refs st]

lemma resolveSymbolReferences_budget0 (hmf : o.maxFiles = 0) (st : WalkState)
    (u : Uri) (d : Nat) :
    resolveSymbolReferences h o st u d =
      ((symbolCandidatesOf h o u).flatMap fun sym =>
        match h.executeReferenceProvider u sym.position with
        | .error _ => []
        | .ok refs => refs.filter fun t => isAllowed h o t).foldl
        (fun s c => addToQueue s c (d + 1)) st := by
  rw [resolveSymbolReferences, if_neg (by simp [hmf]), symbolCandidatesOf]
  cases hs : h.executeDocumentSymbolProvider u with
  | error e => rfl
  | ok resp =>
    cases hk : o.symbolKinds with
    | none => rfl
    | some allowed =>
      dsimp only
      by_cases hall : allowed = []
      · rw [if_pos hall, if_pos hall]
        rfl
      · rw [if_neg hall, if_neg hall]
        exact symbolsLoop_budget0 h o hmf u d _ st

lemma processNode_budget0 (hmf : o.maxFiles = 0) (st : WalkState) (u : Uri) (d : Nat) :
    processNode h o st u d =
      (nodeCandidates h o u).foldl (fun s c => addToQueue s c (d + 1)) st := by
  rw [processNode, nodeCandidates]
  cases ho : h.openTextDocument u with
  | error e => rfl
  | ok text =>
    cases hl : h.executeLinkProvider u with
    | error e => rfl
    | ok links =>
      dsimp only
      rw [resolveRelativeImports]
      rw [linksFold_budget0 h o st links d, importsFold_budget0 h o u d]
      by_cases hdeep : o.strategy = AnalysisStrategy.deep ∧ o.symbolKinds.getD [] ≠ []
      · rw [if_pos hdeep, if_pos hdeep,
          resolveSymbolReferences_budget0 h o hmf _ u d]
        simp only [List.foldl_append]
      · rw [if_neg hdeep, if_neg hdeep]
        simp only [List.foldl_append, List.append_nil]

/-! ### Erasure: the annotated loop mirrors the real one -/

lemma eraseG_gAdd (st : GState) (u : Uri) (d : Nat) :
    eraseG (gAdd st u d) = addToQueue (eraseG st) u d := by
  simp only [gAdd, addToQueue, eraseG]
  by_cases hv : (st.gvisited.map Prod.fst).contains u = true
  · rw [if_pos hv, if_pos hv]
  · rw [if_neg hv, if_neg hv]
    simp

lemma eraseG_fold (cs : List Uri) (d : Nat) :
    ∀ g : GState,
      eraseG (cs.foldl (fun s c => gAdd s c d) g) =
        cs.foldl (fun s c => addToQueue s c d) (eraseG g) := by
  induction cs with
  | nil => intro g; rfl
  | cons c cs ih =>
    intro g
    simp only [List.foldl_cons]
    rw [ih, eraseG_gAdd]

lemma gWalkLoop_zero (g : GState) : gWalkLoop h o 0 g = Option.none := rfl

lemma gWalkLoop_nil {g : GState} (k : Nat) (hq : g.gqueue = []) :
    gWalkLoop h o (k + 1) g = some g := by
  simp only [gWalkLoop, hq]

lemma gWalkLoop_skip {g : GState} {u : Uri} {d : Nat} {rest : List (Uri × Nat)}
    (k : Nat) (hq : g.gqueue = (u, d) :: rest) (hd : d ≥ o.maxDepth) :
    gWalkLoop h o (k + 1) g = gWalkLoop h o k { g with gqueue := rest } := by
  simp only [gWalkLoop, hq]
  rw [if_pos hd]

lemma gWalkLoop_proc {g : GState} {u : Uri} {d : Nat} {rest : List (Uri × Nat)}
    (k : Nat) (hq : g.gqueue = (u, d) :: rest) (hd : ¬ d ≥ o.maxDepth) :
    gWalkLoop h o (k + 1) g =
      gWalkLoop h o k
        ((nodeCandidates h o u).foldl (fun s c => gAdd s c (d + 1))
          { g with gqueue := rest }) := by
  simp only [gWalkLoop, hq]
  rw [if_neg hd]

lemma gWalkLoop_erase (hmf : o.maxFiles = 0) :
    ∀ (fuel : Nat) (g : GState),
      walkLoop h o fuel (eraseG g) = (gWalkLoop h o fuel g).map eraseG := by
  intro fuel
  induction fuel with
  | zero => intro g; rfl
  | succ k ih =>
    intro g
    have hbud : ¬ (o.maxFiles > 0 ∧ (eraseG g).results.length ≥ o.maxFiles) := by
      simp [hmf]
    rcases hq : g.gqueue with _ | ⟨⟨u, d⟩, rest⟩
    · have hq' : (eraseG g).queue = [] := hq
      rw [walkLoop_nil h o k hq', gWalkLoop_nil h o k hq]
      rfl
    · have hq' : (eraseG g).queue = (u, d) :: rest := hq
      by_cases hdep : d ≥ o.maxDepth
      · rw [walkLoop_skip h o k hq' hbud hdep, gWalkLoop_skip h o k hq hdep]
        exact ih { g with gqueue := rest }
      · rw [walkLoop_proc h o k hq' hbud hdep, gWalkLoop_proc h o k hq hdep]
        have hpn : processNode h o { eraseG g with queue := rest } u d =
            eraseG ((nodeCandidates h o u).foldl (fun s c => gAdd s c (d + 1))
              { g with gqueue := rest }) := by
          rw [processNode_budget0 h o hmf, eraseG_fold]
          rfl
        rw [hpn]
        exact ih _

end Machinery

/-! ### BFS invariants on the annotated state -/

section GhostInv

variable (h : Host) (o : WalkerOptions) (seed : Uri)

/-- The breadth-first invariant: visited keys are unique; queued entries are
visited; queue depths are sorted with spread at most one; visited depths
never exceed a queued depth by more than one; every visited node is still
queued, or too deep to expand, or has all its candidates visited one level
deeper at most; every visited entry is the seed at depth 0 or reachable at
its recorded depth within the horizon; the results are exactly the visited
keys of positive depth. -/
structure GInv (st : GState) : Prop where
  vn : (st.gvisited.map Prod.fst).Nodup
  qv : ∀ e ∈ st.gqueue, e ∈ st.gvisited
  qs : List.Sorted (· ≤ ·) (st.gqueue.map Prod.snd)
  qp : ∀ e ∈ st.gqueue, ∀ e' ∈ st.gqueue, e.2 ≤ e'.2 + 1
  vd : ∀ v ∈ st.gvisited, ∀ e ∈ st.gqueue, v.2 ≤ e.2 + 1
  vq : ∀ v ∈ st.gvisited, v ∈ st.gqueue ∨ v.2 ≥ o.maxDepth ∨
        ∀ w ∈ nodeCandidates h o v.1, ∃ d', d' ≤ v.2 + 1 ∧ (w, d') ∈ st.gvisited
  sdp : ∀ v ∈ st.gvisited, (v.1 = seed ∧ v.2 = 0) ∨
        (1 ≤ v.2 ∧ v.2 ≤ o.maxDepth ∧ PathN h o seed v.2 v.1)
  rsp : ∀ x : Uri, x ∈ st.gresults ↔ ∃ d, 0 < d ∧ (x, d) ∈ st.gvisited
  sz : (seed, 0) ∈ st.gvisited

/-- The invariant while folding one node's candidates at depth `dd`
(the exempted entry `ex` is the node being processed). -/
structure MidInv (dd : Nat) (ex : Uri × Nat) (st : GState) : Prop where
  vn : (st.gvisited.map Prod.fst).Nodup
  qv : ∀ e ∈ st.gqueue, e ∈ st.gvisited
  qs : List.Sorted (· ≤ ·) (st.gqueue.map Prod.snd)
  ub : ∀ e ∈ st.gqueue, e.2 ≤ dd
  lb : ∀ e ∈ st.gqueue, dd ≤ e.2 + 1
  hv : ∀ v ∈ st.gvisited, v.2 ≤ dd
  vq : ∀ v ∈ st.gvisited, v = ex ∨ v ∈ st.gqueue ∨ v.2 ≥ o.maxDepth ∨
        ∀ w ∈ nodeCandidates h o v.1, ∃ d', d' ≤ v.2 + 1 ∧ (w, d') ∈ st.gvisited
  sdp : ∀ v ∈ st.gvisited, (v.1 = seed ∧ v.2 = 0) ∨
        (1 ≤ v.2 ∧ v.2 ≤ o.maxDepth ∧ PathN h o seed v.2 v.1)
  rsp : ∀ x : Uri, x ∈ st.gresults ↔ ∃ d, 0 < d ∧ (x, d) ∈ st.gvisited
  sz : (seed, 0) ∈ st.gvisited

lemma gAdd_of_seen {st : GState} {c : Uri} {d : Nat}
    (hc : c ∈ st.gvisited.map Prod.fst) : gAdd st c d = st := by
  simp [gAdd, hc]

lemma gAdd_of_fresh {st : GState} {c : Uri} {d : Nat}
    (hc : c ∉ st.gvisited.map Prod.fst) :
    gAdd st c d =
      { gvisited := (c, d) :: st.gvisited
        gqueue := st.gqueue ++ [(c, d)]
        gresults := if d > 0 then st.gresults ++ [c] else st.gresults } := by
  simp [gAdd, hc]

lemma gAdd_vis_mono {st : GState} {c : Uri} {d : Nat} {v : Uri × Nat}
    (hv : v ∈ st.gvisited) : v ∈ (gAdd st c d).gvisited := by
  by_cases hc : c ∈ st.gvisited.map Prod.fst
  · rw [gAdd_of_seen hc]; exact hv
  · rw [gAdd_of_fresh hc]; exact List.mem_cons_of_mem _ hv

lemma gFold_vis_mono {v : Uri × Nat} {dd : Nat} :
    ∀ (cs : List Uri) (st : GState), v ∈ st.gvisited →
      v ∈ (cs.foldl (fun s c => gAdd s c dd) st).gvisited := by
  intro cs
  induction cs with
  | nil => intro st hv; exact hv
  | cons c rest ih =>
    intro st hv
    simp only [List.foldl_cons]
    exact ih _ (gAdd_vis_mono hv)

lemma midInv_gAdd {dd : Nat} {ex : Uri × Nat} {st : GState} {c : Uri}
    (hm : MidInv h o seed dd ex st) (hdd : 0 < dd) (hddM : dd ≤ o.maxDepth)
    (hreach : PathN h o seed dd c) :
    MidInv h o seed dd ex (gAdd st c dd) ∧
      ∃ d', d' ≤ dd ∧ (c, d') ∈ (gAdd st c dd).gvisited := by
  by_cases hc : c ∈ st.gvisited.map Prod.fst
  · rw [gAdd_of_seen hc]
    rcases List.mem_map.mp hc with ⟨⟨c', dc⟩, hmem, hfst⟩
    cases hfst
    exact ⟨hm, dc, hm.hv _ hmem, hmem⟩
  · rw [gAdd_of_fresh hc]
    have hsub : ∀ v ∈ st.gvisited, v ∈ ((c, dd) :: st.gvisited) :=
      fun v hv => List.mem_cons_of_mem _ hv
    refine ⟨⟨?_, ?_, ?_, ?_, ?_, ?_, ?_, ?_, ?_, ?_⟩, dd, le_refl dd,
      List.mem_cons_self _ _⟩
    · simp only [List.map_cons, List.nodup_cons]
      exact ⟨hc, hm.vn⟩
    · intro e he
      rcases List.mem_append.mp he with he | he
      · exact hsub _ (hm.qv e he)
      · simp only [List.mem_singleton] at he
        simp [he]
    · rw [List.map_append]
      refine List.pairwise_append.mpr ⟨hm.qs, ?_, ?_⟩
      · simp
      · intro a ha b hb
        simp only [List.map_cons, List.map_nil, List.mem_singleton] at hb
        subst hb
        rcases List.mem_map.mp ha with ⟨e, he, hae⟩
        exact hae ▸ hm.ub e he
    · intro e he
      rcases List.mem_append.mp he with he | he
      · exact hm.ub e he
      · simp only [List.mem_singleton] at he
        simp [he]
    · intro e he
      rcases List.mem_append.mp he with he | he
      · exact hm.lb e he
      · simp only [List.mem_singleton] at he
        simp [he]
    · intro v hv
      rcases List.mem_cons.mp hv with hv | hv
      · simp [hv]
      · exact hm.hv v hv
    · intro v hv
      rcases List.mem_cons.mp hv with hv | hv
      · subst hv
        refine Or.inr (Or.inl ?_)
        exact List.mem_append_right _ (List.mem_singleton.mpr rfl)
      · rcases hm.vq v hv with hx | hx | hx | hx
        · exact Or.inl hx
        · exact Or.inr (Or.inl (List.mem_append_left _ hx))
        · exact Or.inr (Or.inr (Or.inl hx))
        · refine Or.inr (Or.inr (Or.inr ?_))
          intro w hw
          obtain ⟨d', hd', hvd⟩ := hx w hw
          exact ⟨d', hd', hsub _ hvd⟩
    · intro v hv
      rcases List.mem_cons.mp hv with hv | hv
      · subst hv
        exact Or.inr ⟨hdd, hddM, hreach⟩
      · exact hm.sdp v hv
    · intro x
      have hdd' : dd > 0 := hdd
      simp only [hdd', if_true]
      constructor
      · intro hx
        rcases List.mem_append.mp hx with hx | hx
        · obtain ⟨d, hd0, hvd⟩ := (hm.rsp x).mp hx
          exact ⟨d, hd0, hsub _ hvd⟩
        · simp only [List.mem_singleton] at hx
          subst hx
          exact ⟨dd, hdd, List.mem_cons_self _ _⟩
      · rintro ⟨d, hd0, hvd⟩
        rcases List.mem_cons.mp hvd with hvd | hvd
        · have : x = c := by injection hvd with h1 h2
          simp [this]
        · exact List.mem_append_left _ ((hm.rsp x).mpr ⟨d, hd0, hvd⟩)
    · exact hsub _ hm.sz

lemma midInv_fold {dd : Nat} {ex : Uri × Nat}
    (hdd : 0 < dd) (hddM : dd ≤ o.maxDepth) :
    ∀ (cs : List Uri) (st : GState), MidInv h o seed dd ex st →
      (∀ c ∈ cs, PathN h o seed dd c) →
      MidInv h o seed dd ex (cs.foldl (fun s c => gAdd s c dd) st) ∧
        ∀ c ∈ cs, ∃ d', d' ≤ dd ∧
          (c, d') ∈ (cs.foldl (fun s c => gAdd s c dd) st).gvisited := by
  intro cs
  induction cs with
  | nil =>
    intro st hm _
    exact ⟨hm, by simp⟩
  | cons c rest ih =>
    intro st hm hre
    obtain ⟨hm1, d', hd', hvd⟩ :=
      midInv_gAdd h o seed hm hdd hddM (hre c (List.mem_cons_self _ _))
    obtain ⟨hm2, hcov⟩ := ih (gAdd st c dd) hm1
      (fun x hx => hre x (List.mem_cons_of_mem _ hx))
    refine ⟨by simpa using hm2, ?_⟩
    intro x hx
    rcases List.mem_cons.mp hx with hx | hx
    · subst hx
      exact ⟨d', hd', by simpa using gFold_vis_mono rest _ hvd⟩
    · simpa using hcov x hx

lemma gInv_step_skip {st : GState} {u : Uri} {d : Nat} {rest : List (Uri × Nat)}
    (hG : GInv h o seed st) (hq : st.gqueue = (u, d) :: rest) (hd : d ≥ o.maxDepth) :
    GInv h o seed { st with gqueue := rest } := by
  have hrest : ∀ e ∈ rest, e ∈ st.gqueue := fun e he => hq ▸ List.mem_cons_of_mem _ he
  refine ⟨hG.vn, ?_, ?_, ?_, ?_, ?_, hG.sdp, hG.rsp, hG.sz⟩
  · intro e he; exact hG.qv e (hrest e he)
  · have := hG.qs
    rw [hq] at this
    simp only [List.map_cons] at this
    exact (List.sorted_cons.mp this).2
  · intro e he e' he'; exact hG.qp e (hrest e he) e' (hrest e' he')
  · intro v hv e he; exact hG.vd v hv e (hrest e he)
  · intro v hv
    rcases hG.vq v hv with hx | hx | hx
    · rw [hq] at hx
      rcases List.mem_cons.mp hx with hx | hx
      · subst hx
        exact Or.inr (Or.inl hd)
      · exact Or.inl hx
    · exact Or.inr (Or.inl hx)
    · exact Or.inr (Or.inr hx)

lemma gInv_step_proc {st : GState} {u : Uri} {d : Nat} {rest : List (Uri × Nat)}
    (hG : GInv h o seed st) (hq : st.gqueue = (u, d) :: rest) (hd : ¬ d ≥ o.maxDepth) :
    GInv h o seed
      ((nodeCandidates h o u).foldl (fun s c => gAdd s c (d + 1))
        { st with gqueue := rest }) := by
  have hhead : (u, d) ∈ st.gqueue := hq ▸ List.mem_cons_self _ _
  have huv : (u, d) ∈ st.gvisited := hG.qv _ hhead
  have hrest : ∀ e ∈ rest, e ∈ st.gqueue := fun e he => hq ▸ List.mem_cons_of_mem _ he
  have hheadle : ∀ e ∈ rest, d ≤ e.2 := by
    have := hG.qs
    rw [hq] at this
    simp only [List.map_cons] at this
    intro e he
    exact (List.sorted_cons.mp this).1 e.2 (List.mem_map.mpr ⟨e, he, rfl⟩)
  have hdd : 0 < d + 1 := Nat.succ_pos d
  have hddM : d + 1 ≤ o.maxDepth := by omega
  have hreach : ∀ c ∈ nodeCandidates h o u, PathN h o seed (d + 1) c := by
    intro c hc
    rcases hG.sdp _ huv with ⟨hus, hd0⟩ | ⟨_, _, hp⟩
    · have hu : u = seed := hus
      have hd0' : d = 0 := hd0
      rw [hd0', ← hu]
      exact PathN.step (PathN.refl u) hc
    · exact PathN.step hp hc
  have hmid : MidInv h o seed (d + 1) (u, d) { st with gqueue := rest } := by
    refine ⟨hG.vn, ?_, ?_, ?_, ?_, ?_, ?_, hG.sdp, hG.rsp, hG.sz⟩
    · intro e he; exact hG.qv e (hrest e he)
    · have := hG.qs
      rw [hq] at this
      simp only [List.map_cons] at this
      exact (List.sorted_cons.mp this).2
    · intro e he
      have := hG.qp e (hrest e he) (u, d) hhead
      simp only at this
      omega
    · intro e he
      have := hheadle e he
      omega
    · intro v hv
      have := hG.vd v hv (u, d) hhead
      simpa using this
    · intro v hv
      rcases hG.vq v hv with hx | hx | hx
      · rw [hq] at hx
        rcases List.mem_cons.mp hx with hx | hx
        · exact Or.inl hx
        · exact Or.inr (Or.inl hx)
      · exact Or.inr (Or.inr (Or.inl hx))
      · exact Or.inr (Or.inr (Or.inr hx))
  obtain ⟨hm, hcov⟩ :=
    midInv_fold h o seed hdd hddM (nodeCandidates h o u) { st with gqueue := rest }
      hmid hreach
  refine ⟨hm.vn, hm.qv, hm.qs, ?_, ?_, ?_, hm.sdp, hm.rsp, hm.sz⟩
  · intro e he e' he'
    have h1 := hm.ub e he
    have h2 := hm.lb e' he'
    omega
  · intro v hv e he
    have h1 := hm.hv v hv
    have h2 := hm.lb e he
    omega
  · intro v hv
    rcases hm.vq v hv with hx | hx | hx | hx
    · subst hx
      refine Or.inr (Or.inr ?_)
      intro w hw
      obtain ⟨d', hd', hvd⟩ := hcov w hw
      exact ⟨d', by omega, hvd⟩
    · exact Or.inl hx
    · exact Or.inr (Or.inl hx)
    · exact Or.inr (Or.inr hx)

lemma gWalkLoop_inv :
    ∀ (fuel : Nat) (st fin : GState), GInv h o seed st →
      gWalkLoop h o fuel st = some fin → GInv h o seed fin ∧ fin.gqueue = [] := by
  intro fuel
  induction fuel with
  | zero => intro st fin _ hw; simp [gWalkLoop_zero] at hw
  | succ k ih =>
    intro st fin hG hw
    rcases hq : st.gqueue with _ | ⟨⟨u, d⟩, rest⟩
    · rw [gWalkLoop_nil h o k hq] at hw
      cases hw
      exact ⟨hG, hq⟩
    · by_cases hdep : d ≥ o.maxDepth
      · rw [gWalkLoop_skip h o k hq hdep] at hw
        exact ih _ fin (gInv_step_skip h o seed hG hq hdep) hw
      · rw [gWalkLoop_proc h o k hq hdep] at hw
        exact ih _ fin (gInv_step_proc h o seed hG hq hdep) hw

lemma gInv_init : GInv h o seed (gAdd ⟨[], [], []⟩ seed 0) := by
  have hfresh : seed ∉ (([] : List (Uri × Nat)).map Prod.fst) := by simp
  rw [gAdd_of_fresh hfresh]
  refine ⟨?_, ?_, ?_, ?_, ?_, ?_, ?_, ?_, ?_⟩ <;>
    simp [List.sorted_singleton]

lemma gInv_complete {fin : GState} (hG : GInv h o seed fin) (hqe : fin.gqueue = []) :
    ∀ (n : Nat) (v : Uri), PathN h o seed n v → n ≤ o.maxDepth →
      ∃ d, d ≤ n ∧ (v, d) ∈ fin.gvisited := by
  intro n
  induction n with
  | zero =>
    intro v hp _
    cases hp
    exact ⟨0, le_refl 0, hG.sz⟩
  | succ m ih =>
    intro v hp hle
    cases hp with
    | step hp' hw =>
      rename_i v0
      obtain ⟨du, hdu, hvu⟩ := ih _ hp' (by omega)
      rcases hG.vq _ hvu with hx | hx | hx
      · rw [hqe] at hx
        simp at hx
      · simp only at hx
        omega
      · obtain ⟨d', hd', hvd⟩ := hx v hw
        exact ⟨d', by omega, hvd⟩

lemma nodup_fst_unique {l : List (Uri × Nat)} (hn : (l.map Prod.fst).Nodup)
    {a : Uri} {d1 d2 : Nat} (h1 : (a, d1) ∈ l) (h2 : (a, d2) ∈ l) : d1 = d2 := by
  induction l with
  | nil => simp at h1
  | cons x xs ih =>
    simp only [List.map_cons, List.nodup_cons] at hn
    rcases List.mem_cons.mp h1 with h1 | h1 <;> rcases List.mem_cons.mp h2 with h2 | h2
    · rw [← h1] at h2
      injection h2 with _ hd
      exact hd.symm
    · exfalso
      apply hn.1
      rw [← h1]
      exact List.mem_map.mpr ⟨(a, d2), h2, rfl⟩
    · exfalso
      apply hn.1
      rw [← h2]
      exact List.mem_map.mpr ⟨(a, d1), h1, rfl⟩
    · exact ih hn.2 h1 h2

end GhostInv

/-! ## Host congruence

Which host capabilities a walk consults is read off from congruence
lemmas: helper loops that agree pointwise on the capabilities they use
produce identical states. -/

section Congruence

variable (h1 h2 : Host) (o : WalkerOptions)

lemma isAllowed_congr (hw : h1.getWorkspaceFolder = h2.getWorkspaceFolder)
    (hr : h1.asRelativePath = h2.asRelativePath) :
    isAllowed h1 o = isAllowed h2 o := by
  funext u
  rw [isAllowed, isAllowed, hw, hr]

lemma refsLoop_congr (hall : isAllowed h1 o = isAllowed h2 o) (d : Nat) :
    ∀ (refs : List Uri) (st : WalkState),
      refsLoop h1 o d refs st = refsLoop h2 o d refs st := by
  intro refs
  induction refs with
  | nil => intro st; rfl
  | cons r rs ih =>
    intro st
    rw [refsLoop, refsLoop, hall]
    split
    · rfl
    · rw [ih]

lemma symbolsLoop_congr (hall : isAllowed h1 o = isAllowed h2 o) (u : Uri) (d : Nat)
    (hrefs : ∀ p : Nat,
      h1.executeReferenceProvider u p = h2.executeReferenceProvider u p ∨
        (h1.executeReferenceProvider u p = .error () ∧
          h2.executeReferenceProvider u p = .ok [])) :
    ∀ (syms : List SymEntry) (st : WalkState),
      symbolsLoop h1 o u d syms st = symbolsLoop h2 o u d syms st := by
  intro syms
  induction syms with
  | nil => intro st; rfl
  | cons sym rest ih =>
    intro st
    rw [symbolsLoop, symbolsLoop]
    split
    · rfl
    · rw [ih]
      rcases hrefs sym.position with heq | ⟨he1, he2⟩
      · rw [heq]
        cases h2.executeReferenceProvider u sym.position with
        | error e => rfl
        | ok refs =>
          dsimp only
          rw [refsLoop_congr h1 h2 o hall d refs st]
      · rw [he1, he2]
        rfl

lemma resolveSymbolReferences_congr (hall : isAllowed h1 o = isAllowed h2 o)
    (u : Uri)
    (hsym : h1.executeDocumentSymbolProvider u = h2.executeDocumentSymbolProvider u)
    (hrefs : ∀ p : Nat,
      h1.executeReferenceProvider u p = h2.executeReferenceProvider u p ∨
        (h1.executeReferenceProvider u p = .error () ∧
          h2.executeReferenceProvider u p = .ok [])) (st : WalkState) (d : Nat) :
    resolveSymbolReferences h1 o st u d = resolveSymbolReferences h2 o st u d := by
  rw [resolveSymbolReferences, resolveSymbolReferences, hsym]
  split
  · rfl
  · cases h2.executeDocumentSymbolProvider u with
    | error e => rfl
    | ok resp =>
      cases o.symbolKinds with
      | none => rfl
      | some allowed =>
        simp only
        split
        · rfl
        · exact symbolsLoop_congr h1 h2 o hall u d hrefs _ st

lemma locsFold_congr (hall : isAllowed h1 o = isAllowed h2 o) (d : Nat) :
    ∀ (locs : List Uri) (st : WalkState),
      locs.foldl
        (fun s2 t => if isAllowed h1 o t then addToQueue s2 t (d + 1) else s2) st =
      locs.foldl
        (fun s2 t => if isAllowed h2 o t then addToQueue s2 t (d + 1) else s2) st := by
  intro locs st
  simp only [hall]

lemma resolveRelativeImports_congr (hall : isAllowed h1 o = isAllowed h2 o)
    (u : Uri)
    (hdef : ∀ p : Nat, h1.executeDefinitionProvider u p = h2.executeDefinitionProvider u p)
    (st : WalkState) (text : String) (d : Nat) :
    resolveRelativeImports h1 o st text u d = resolveRelativeImports h2 o st text u d := by
  rw [resolveRelativeImports, resolveRelativeImports]
  generalize scanImports text.toList 0 = offs
  induction offs generalizing st with
  | nil => rfl
  | cons pos rest ih =>
    simp only [List.foldl_cons, hdef pos]
    cases h2.executeDefinitionProvider u pos with
    | error e => exact ih _
    | ok locs =>
      dsimp only
      rw [locsFold_congr h1 h2 o hall d locs st]
      exact ih _

lemma linksFold_congr (hall : isAllowed h1 o = isAllowed h2 o) (d : Nat) :
    ∀ (links : List DocumentLink) (st : WalkState),
      links.foldl
        (fun s link =>
          match link.target with
          | Option.none => s
          | Option.some t => if isAllowed h1 o t then addToQueue s t (d + 1) else s) st =
      links.foldl
        (fun s link =>
          match link.target with
          | Option.none => s
          | Option.some t => if isAllowed h2 o t then addToQueue s t (d + 1) else s) st := by
  intro links st
  simp only [hall]

/-- Nodes whose document opens and whose link provider answers behave
identically under two hosts that agree on the open/link/definition
capabilities and the target filter, provided symbol resolution either is
disabled or agrees in the error-to-empty sense. -/
lemma processNode_congr (hall : isAllowed h1 o = isAllowed h2 o) (u : Uri)
    (hopen : h1.openTextDocument u = h2.openTextDocument u)
    (hlink : h1.executeLinkProvider u = h2.executeLinkProvider u)
    (hdef : ∀ p : Nat, h1.executeDefinitionProvider u p = h2.executeDefinitionProvider u p)
    (hsymOk : o.strategy = .deep ∧ o.symbolKinds.getD [] ≠ [] →
      h1.executeDocumentSymbolProvider u = h2.executeDocumentSymbolProvider u ∧
      ∀ p : Nat,
        h1.executeReferenceProvider u p = h2.executeReferenceProvider u p ∨
          (h1.executeReferenceProvider u p = .error () ∧
            h2.executeReferenceProvider u p = .ok [])) :
    ∀ (st : WalkState) (d : Nat), processNode h1 o st u d = processNode h2 o st u d := by
  intro st d
  rw [processNode, processNode, hopen, hlink]
  cases h2.openTextDocument u with
  | error e => rfl
  | ok text =>
    cases h2.executeLinkProvider u with
    | error e => rfl
    | ok links =>
      simp only
      rw [linksFold_congr h1 h2 o hall d links st]
      rw [resolveRelativeImports_congr h1 h2 o hall u hdef _ text d]
      by_cases hdeep : o.strategy = AnalysisStrategy.deep ∧ o.symbolKinds.getD [] ≠ []
      · rw [if_pos hdeep, if_pos hdeep]
        exact resolveSymbolReferences_congr h1 h2 o hall u (hsymOk hdeep).1 (hsymOk hdeep).2
          _ d
      · rw [if_neg hdeep, if_neg hdeep]

lemma walkLoop_congr
    (hpn : ∀ (st : WalkState) (u : Uri) (d : Nat),
      processNode h1 o st u d = processNode h2 o st u d) :
    ∀ (fuel : Nat) (st : WalkState), walkLoop h1 o fuel st = walkLoop h2 o fuel st := by
  intro fuel
  induction fuel with
  | zero => intro st; rfl
  | succ k ih =>
    intro st
    rcases hq : st.queue with _ | ⟨⟨u, d⟩, rest⟩
    · rw [walkLoop_nil h1 o k hq, walkLoop_nil h2 o k hq]
    · by_cases hbud : o.maxFiles > 0 ∧ st.results.length ≥ o.maxFiles
      · rw [walkLoop_budget h1 o k hq hbud, walkLoop_budget h2 o k hq hbud]
      · by_cases hdep : d ≥ o.maxDepth
        · rw [walkLoop_skip h1 o k hq hbud hdep, walkLoop_skip h2 o k hq hbud hdep]
          exact ih _
        · rw [walkLoop_proc h1 o k hq hbud hdep, walkLoop_proc h2 o k hq hbud hdep, hpn]
          exact ih _

lemma walk_congr
    (hpn : ∀ (st : WalkState) (u : Uri) (d : Nat),
      processNode h1 o st u d = processNode h2 o st u d)
    (fuel : Nat) (seed : Uri) :
    walk h1 o fuel seed = walk h2 o fuel seed := by
  rw [walk, walk, walkLoop_congr h1 h2 o hpn]

end Congruence

/-! ## Coordinator lemmas -/

lemma expandInner_spec (mf : Nat) :
    ∀ (rs : List Uri) (s : List Uri) (n : Nat),
      (expandInner mf rs (s, n)).1.length + n = s.length + (expandInner mf rs (s, n)).2 ∧
      n ≤ (expandInner mf rs (s, n)).2 ∧
      (n ≤ mf → (expandInner mf rs (s, n)).2 ≤ mf) := by
  intro rs
  induction rs with
  | nil => intro s n; simp [expandInner]
  | cons r rest ih =>
    intro s n
    rw [expandInner]
    by_cases hb : n ≥ mf
    · simp [hb]
    · rw [if_neg hb]
      by_cases hc : s.contains r
      · simp only [hc, if_true]
        exact ih s n
      · simp only [hc, Bool.false_eq_true, if_false]
        obtain ⟨ih1, ih2, ih3⟩ := ih (s ++ [r]) (n + 1)
        refine ⟨?_, ?_, ?_⟩
        · simp only [List.length_append, List.length_singleton] at ih1 ⊢
          omega
        · omega
        · intro _
          exact ih3 (by omega)

lemma expandSeeds_spec (walkFn : Uri → List Uri) (mf : Nat) :
    ∀ (us : List Uri) (s : List Uri) (n : Nat),
      (expandSeeds walkFn mf us (s, n)).1.length + n =
        s.length + (expandSeeds walkFn mf us (s, n)).2 ∧
      n ≤ (expandSeeds walkFn mf us (s, n)).2 ∧
      (n ≤ mf → (expandSeeds walkFn mf us (s, n)).2 ≤ mf) := by
  intro us
  induction us with
  | nil => intro s n; simp [expandSeeds]
  | cons u rest ih =>
    intro s n
    rw [expandSeeds]
    by_cases hb : n ≥ mf
    · simp [hb]
    · rw [if_neg hb]
      obtain ⟨a1, a2, a3⟩ := expandInner_spec mf (walkFn u) s n
      rcases hmid : expandInner mf (walkFn u) (s, n) with ⟨s1, n1⟩
      rw [hmid] at a1 a2 a3
      simp only at a1 a2 a3
      obtain ⟨b1, b2, b3⟩ := ih s1 n1
      refine ⟨by omega, by omega, ?_⟩
      intro hn
      exact b3 (a3 hn)

lemma expandContext_spec (walkFn : Uri → List Uri) (initial : List Uri) (cfg : ExpandConfig) :
    (expandContext walkFn initial cfg).1.length =
      (initial.foldl insertNew []).length + (expandContext walkFn initial cfg).2 ∧
    (expandContext walkFn initial cfg).2 ≤ cfg.maxFiles := by
  rw [expandContext]
  by_cases hoff : ¬ cfg.enabled = true ∨ cfg.strategy = AnalysisStrategy.none
  · rw [if_pos hoff]
    simp
  · rw [if_neg hoff]
    obtain ⟨a1, a2, a3⟩ :=
      expandSeeds_spec walkFn cfg.maxFiles initial (initial.foldl insertNew []) 0
    exact ⟨by omega, a3 (Nat.zero_le _)⟩

/-! ## Candidate-expansion lemmas (for C4) -/

lemma mem_insertNew_iff {s : List Uri} {v u : Uri} :
    u ∈ insertNew s v ↔ u ∈ s ∨ u = v := by
  rw [insertNew]
  by_cases hc : s.contains v
  · have hv : v ∈ s := by simpa using hc
    simp only [hc, if_true]
    constructor
    · exact Or.inl
    · rintro (hu | hu)
      · exact hu
      · exact hu ▸ hv
  · simp only [hc, Bool.false_eq_true, if_false, List.mem_append, List.mem_singleton]

lemma mem_foldl_insertNew_of_mem {s : List Uri} {u : Uri} (l : List Uri)
    (hu : u ∈ s) : u ∈ l.foldl insertNew s := by
  induction l generalizing s with
  | nil => exact hu
  | cons v vs ih =>
    simp only [List.foldl_cons]
    exact ih (mem_insertNew_iff.mpr (Or.inl hu))

lemma mem_foldl_insertNew_of_mem_list {s : List Uri} {u : Uri} (l : List Uri)
    (hu : u ∈ l) : u ∈ l.foldl insertNew s := by
  induction l generalizing s with
  | nil => simp at hu
  | cons v vs ih =>
    simp only [List.foldl_cons]
    rcases List.mem_cons.mp hu with hu | hu
    · exact mem_foldl_insertNew_of_mem vs (mem_insertNew_iff.mpr (Or.inr hu))
    · exact ih hu

lemma mem_foldl_insertNew_cases {s : List Uri} {u : Uri} (l : List Uri)
    (hu : u ∈ l.foldl insertNew s) : u ∈ s ∨ u ∈ l := by
  induction l generalizing s with
  | nil => exact Or.inl hu
  | cons v vs ih =>
    simp only [List.foldl_cons] at hu
    rcases ih hu with hu | hu
    · rcases mem_insertNew_iff.mp hu with hu | hu
      · exact Or.inl hu
      · exact Or.inr (hu ▸ List.mem_cons_self _ _)
    · exact Or.inr (List.mem_cons_of_mem _ hu)

lemma expandCandidates_mono (fs : Fs) (excl : List String) :
    ∀ (cands targets : List Uri) (u : Uri), u ∈ targets →
      u ∈ expandCandidates fs excl cands targets := by
  intro cands
  induction cands with
  | nil => intro targets u hu; exact hu
  | cons c rest ih =>
    intro targets u hu
    rw [expandCandidates]
    cases fs.stat c with
    | error e => exact ih targets u hu
    | ok ft =>
      dsimp only
      by_cases hd : ft = FileType.directory
      · rw [if_pos hd]
        exact ih _ u (mem_foldl_insertNew_of_mem _ hu)
      · rw [if_neg hd]
        exact ih _ u (mem_insertNew_iff.mpr (Or.inl hu))

lemma expandCandidates_no_dir (fs : Fs) (excl : List String) :
    ∀ (cands targets : List Uri),
      (∀ u ∈ targets, ¬ fs.stat u = .ok FileType.directory) →
      ∀ u ∈ expandCandidates fs excl cands targets,
        ¬ fs.stat u = .ok FileType.directory := by
  intro cands
  induction cands with
  | nil => intro targets ht u hu; exact ht u hu
  | cons c rest ih =>
    intro targets ht u hu
    rw [expandCandidates] at hu
    cases hstat : fs.stat c with
    | error e =>
      rw [hstat] at hu
      exact ih targets ht u hu
    | ok ft =>
      rw [hstat] at hu
      dsimp only at hu
      by_cases hd : ft = FileType.directory
      · rw [if_pos hd] at hu
        refine ih _ ?_ u hu
        intro x hx
        rcases mem_foldl_insertNew_cases _ hx with hx | hx
        · exact ht x hx
        · rcases List.mem_filter.mp hx with ⟨_, hfile⟩
          intro hc
          rw [hc] at hfile
          simp at hfile
      · rw [if_neg hd] at hu
        refine ih _ ?_ u hu
        intro x hx
        rcases mem_insertNew_iff.mp hx with hx | hx
        · exact ht x hx
        · subst hx
          rw [hstat]
          intro hc
          exact hd (by injection hc)

lemma expandCandidates_dir_children (fs : Fs) (excl : List String) :
    ∀ (cands targets : List Uri) (d : Uri), d ∈ cands →
      fs.stat d = .ok FileType.directory →
      ∀ c ∈ collectFileUrisByFs fs d excl,
        c ∈ expandCandidates fs excl cands targets := by
  intro cands
  induction cands with
  | nil => intro targets d hd; simp at hd
  | cons x rest ih =>
    intro targets d hd hdir c hc
    rw [expandCandidates]
    rcases List.mem_cons.mp hd with hd | hd
    · subst hd
      rw [hdir]
      dsimp only
      rw [if_pos rfl]
      exact expandCandidates_mono fs excl rest _ c (mem_foldl_insertNew_of_mem_list _ hc)
    · cases fs.stat x with
      | error e => exact ih targets d hd hdir c hc
      | ok ft =>
        dsimp only
        by_cases hft : ft = FileType.directory
        · rw [if_pos hft]
          exact ih _ d hd hdir c hc
        · rw [if_neg hft]
          exact ih _ d hd hdir c hc

/-! ## Claim C4 -/

/-- Counterexample to C4 as stated: seeds are handed to the Walker *before*
directory expansion.  With a directory seed whose only member file would
discover `g.ts`, the implementation never walks that member (the walk runs
on the raw directory and finds nothing, the directory is expanded only
afterwards), while the spec-described pipeline (expand first, then walk)
does discover `g.ts`. -/
theorem claim4_counterexample :
    contextExpansionStep exFs exWalkFn exStepCfg [exDir] = [exF] ∧
    specExpansionStep exFs exWalkFn exStepCfg [exDir] = [exF, exG] ∧
    ([exF] : List Uri) ≠ [exF, exG] :=
  ⟨by decide, by decide, by decide⟩

/-- C4 (amended): directory seeds are passed to the Walker unexpanded;
after the walk, the Coordinator stats every URI of the merged set and
replaces each directory by its recursively-contained file members
(respecting the exclusion patterns).  Consequently, whenever the expansion
step actually runs, its output never contains a directory, and it does
contain every collected file member of every directory in the merged set. -/
theorem claim4_dirs_expanded_after_walk (fs : Fs) (walkFn : Uri → List Uri)
    (cfg : StepConfig) (initialUris : List Uri)
    (hne : initialUris ≠ [])
    (hon : ¬ (¬ cfg.strategy ≠ AnalysisStrategy.none ∧ ¬ cfg.autoExpand = true)) :
    (∀ u ∈ contextExpansionStep fs walkFn cfg initialUris,
        ¬ fs.stat u = .ok FileType.directory) ∧
    (∀ d ∈ (expandContext walkFn initialUris
        ⟨cfg.autoExpand, cfg.strategy,
          (if cfg.maxFiles = 0 then MAX_SAFE_INTEGER else cfg.maxFiles),
          cfg.excludePatterns⟩).1,
      fs.stat d = .ok FileType.directory →
      ∀ c ∈ collectFileUrisByFs fs d cfg.excludePatterns,
        c ∈ contextExpansionStep fs walkFn cfg initialUris) := by
  have hstep : contextExpansionStep fs walkFn cfg initialUris =
      expandCandidates fs cfg.excludePatterns
        (expandContext walkFn initialUris
          ⟨cfg.autoExpand, cfg.strategy,
            (if cfg.maxFiles = 0 then MAX_SAFE_INTEGER else cfg.maxFiles),
            cfg.excludePatterns⟩).1 [] := by
    rw [contextExpansionStep, if_neg hne, if_neg hon]
  constructor
  · intro u hu
    rw [hstep] at hu
    exact expandCandidates_no_dir fs cfg.excludePatterns _ [] (by simp) u hu
  · intro d hd hdir c hc
    rw [hstep]
    exact expandCandidates_dir_children fs cfg.excludePatterns _ [] d hd hdir c hc

/-- Witness for the amended C4 at the concrete fixture: the step's output
contains no directory, and the directory candidate's collected member is in
the output. -/
theorem claim4_witness :
    (¬ exFs.stat exF = .ok FileType.directory) ∧ exF ∈ [exF] := by
  have h := claim4_dirs_expanded_after_walk exFs exWalkFn exStepCfg [exDir]
    (by decide) (by decide)
  constructor
  · have h1 := h.1 exF
    rw [(by decide : contextExpansionStep exFs exWalkFn exStepCfg [exDir] = [exF])] at h1
    exact h1 (by decide)
  · decide

/-! ## Claim C5 -/

/-- C5: for every walk, no `FileRef` appears twice in the emitted related
refs, and the seed of that walk never appears among them (seeds are
enqueued at depth 0, and only entries added at depth > 0 are pushed to the
results). -/
theorem claim5_walk_results_nodup_and_no_seed (h : Host) (o : WalkerOptions)
    (fuel : Nat) (seed : Uri) (res : List Uri)
    (hw : walk h o fuel seed = some res) :
    res.Nodup ∧ seed ∉ res := by
  obtain ⟨fin, hinv, hres⟩ := walk_inv h o seed fuel res hw
  exact ⟨hres ▸ hinv.res_nodup, hres ▸ hinv.seed_not_res⟩

/-- Witness for C5 at a concrete cyclic two-file host. -/
theorem claim5_witness :
    ([exB].Nodup ∧ exA ∉ [exB]) :=
  claim5_walk_results_nodup_and_no_seed exHostCyc exOptsShallow 10 exA [exB] (by decide)

/-! ## Claim C10 -/

/-- C10: the walker's target filter admits only URIs whose scheme is `file`
or `vscode-vfs`, and consequently every emitted related ref of every walk
has one of those two schemes, regardless of workspace membership or
exclusion patterns. -/
theorem claim10_scheme_restriction :
    (∀ (h : Host) (o : WalkerOptions) (u : Uri),
        isAllowed h o u = true → u.scheme = "file" ∨ u.scheme = "vscode-vfs") ∧
    (∀ (h : Host) (o : WalkerOptions) (fuel : Nat) (seed : Uri) (res : List Uri),
        walk h o fuel seed = some res →
          ∀ v ∈ res, v.scheme = "file" ∨ v.scheme = "vscode-vfs") := by
  have hallow : ∀ (h : Host) (o : WalkerOptions) (u : Uri),
      isAllowed h o u = true → u.scheme = "file" ∨ u.scheme = "vscode-vfs" := by
    intro h o u hu
    rw [isAllowed] at hu
    by_cases hs : u.scheme ≠ "file" ∧ u.scheme ≠ "vscode-vfs"
    · simp [hs] at hu
    · push_neg at hs
      by_cases hf : u.scheme = "file"
      · exact Or.inl hf
      · exact Or.inr (hs hf)
  refine ⟨hallow, ?_⟩
  intro h o fuel seed res hw v hv
  obtain ⟨fin, hinv, hres⟩ := walk_inv h o seed fuel res hw
  exact hallow h o v (hinv.res_allowed v (hres ▸ hv))

/-- Witness for C10: a concrete emitted ref has an admitted scheme. -/
theorem claim10_witness :
    exB.scheme = "file" ∨ exB.scheme = "vscode-vfs" :=
  claim10_scheme_restriction.2 exHostCyc exOptsShallow 10 exA [exB] (by decide) exB
    (by decide)

/-! ## Claim C1 -/

/-- Counterexample to C1 as stated: two hosts that agree on everything
except the definition-resolution (relative-import) capability give
different results for a *shallow* walk — `processNode` calls
`resolveRelativeImports` unconditionally, for every strategy, so shallow
candidate discovery is not restricted to direct link relations. -/
theorem claim1_counterexample :
    walk exHostImp exOptsShallow 10 exA = some [exB] ∧
    walk { exHostImp with executeDefinitionProvider := fun _ _ => .ok [] }
      exOptsShallow 10 exA = some [] ∧
    (some [exB] : Option (List Uri)) ≠ some [] :=
  ⟨by decide, by decide, by decide⟩

/-- C1 (amended): candidate discovery uses the link scanner *and* the
relative-import resolver for every strategy; only symbol-reference
discovery is strategy-gated (deep with configured symbol kinds).  In
particular a shallow walk is a function of the document, link, definition
and workspace capabilities alone: two hosts agreeing on those produce
identical walks, whatever their document-symbol and reference providers
do. -/
theorem claim1_shallow_ignores_symbol_providers (h1 h2 : Host) (o : WalkerOptions)
    (fuel : Nat) (seed : Uri)
    (hsh : o.strategy = AnalysisStrategy.shallow)
    (hopen : h1.openTextDocument = h2.openTextDocument)
    (hlink : h1.executeLinkProvider = h2.executeLinkProvider)
    (hdef : h1.executeDefinitionProvider = h2.executeDefinitionProvider)
    (hwf : h1.getWorkspaceFolder = h2.getWorkspaceFolder)
    (hrp : h1.asRelativePath = h2.asRelativePath) :
    walk h1 o fuel seed = walk h2 o fuel seed := by
  apply walk_congr
  intro st u d
  refine processNode_congr h1 h2 o (isAllowed_congr h1 h2 o hwf hrp) u
    (congrFun hopen u) (congrFun hlink u)
    (fun p => congrFun (congrFun hdef u) p) ?_ st d
  intro hdeep
  rw [hsh] at hdeep
  exact absurd hdeep.1 (by decide)

/-- Witness for C1 at a concrete shallow walk whose two hosts differ in
both symbol-side providers. -/
theorem claim1_witness :
    walk exHostImp exOptsShallow 10 exA =
      walk { exHostImp with
        executeDocumentSymbolProvider := fun _ => .error ()
        executeReferenceProvider := fun _ _ => .error () } exOptsShallow 10 exA :=
  claim1_shallow_ignores_symbol_providers exHostImp
    { exHostImp with
      executeDocumentSymbolProvider := fun _ => .error ()
      executeReferenceProvider := fun _ _ => .error () }
    exOptsShallow 10 exA rfl rfl rfl rfl rfl rfl

/-! ## Claim C8 -/

/-- Counterexample to C8 as stated: a link-provider failure is *not*
equivalent to that provider returning zero candidates for the node — the
surrounding `try`/`catch` also abandons the import (and symbol) phases of
that node.  Here `a.ts` has a relative import resolving to `b.ts`; with the
link provider throwing the walk finds nothing, while with the link provider
returning an empty list it finds `b.ts`. -/
theorem claim8_counterexample :
    walk exHostImpLinkErr exOptsShallow 10 exA = some [] ∧
    walk { exHostImpLinkErr with executeLinkProvider := fun _ => .ok [] }
      exOptsShallow 10 exA = some [exB] ∧
    (some [] : Option (List Uri)) ≠ some [exB] :=
  ⟨by decide, by decide, by decide⟩

/-- C8 (amended): provider failures never abort the walk, and they degrade
as follows.  A failing reference lookup behaves exactly as if that lookup
had returned no locations (first conjunct).  A failing link-provider call
abandons the rest of that node's discovery: the node behaves as if its
document could not be opened at all, while the walk continues with the
remaining queue (second conjunct). -/
theorem claim8_failure_containment :
    (∀ (h : Host) (o : WalkerOptions) (fuel : Nat) (seed u0 : Uri) (p0 : Nat),
        h.executeReferenceProvider u0 p0 = .error () →
        walk h o fuel seed =
          walk { h with executeReferenceProvider := fun u p =>
            if u = u0 ∧ p = p0 then .ok [] else h.executeReferenceProvider u p }
            o fuel seed) ∧
    (∀ (h : Host) (o : WalkerOptions) (fuel : Nat) (seed u0 : Uri),
        h.executeLinkProvider u0 = .error () →
        walk h o fuel seed =
          walk { h with openTextDocument := fun u =>
            if u = u0 then Except.error () else h.openTextDocument u } o fuel seed) := by
  constructor
  · intro h o fuel seed u0 p0 herr
    apply walk_congr
    intro st u d
    refine processNode_congr h
      { h with executeReferenceProvider := fun u p =>
        if u = u0 ∧ p = p0 then .ok [] else h.executeReferenceProvider u p }
      o rfl u rfl rfl (fun p => rfl) ?_ st d
    intro _
    refine ⟨rfl, ?_⟩
    intro p
    by_cases hup : u = u0 ∧ p = p0
    · refine Or.inr ⟨hup.1 ▸ hup.2 ▸ herr, ?_⟩
      simp [hup.1, hup.2]
    · refine Or.inl ?_
      simp [hup]
  · intro h o fuel seed u0 herr
    apply walk_congr
    intro st u d
    by_cases hu : u = u0
    · subst hu
      rw [processNode, processNode]
      cases ho : h.openTextDocument u with
      | error e => simp
      | ok text => simp [herr]
    · refine processNode_congr h
        { h with openTextDocument := fun u =>
          if u = u0 then Except.error () else h.openTextDocument u }
        o rfl u (by simp [hu]) rfl (fun p => rfl) ?_ st d
      intro _
      exact ⟨rfl, fun p => Or.inl rfl⟩

/-- Witness for C8: both conjuncts applied at a concrete host whose link
provider (resp. reference provider) fails at `a.ts`. -/
theorem claim8_witness :
    walk exHostImpLinkErr exOptsShallow 10 exA =
      walk { exHostImpLinkErr with openTextDocument := fun u =>
        if u = exA then Except.error () else exHostImpLinkErr.openTextDocument u }
        exOptsShallow 10 exA ∧
    walk exHostRefErr exOptsShallow 10 exA =
      walk { exHostRefErr with
        executeReferenceProvider := fun u p =>
          if u = exA ∧ p = 0 then .ok []
          else exHostRefErr.executeReferenceProvider u p } exOptsShallow 10 exA :=
  ⟨claim8_failure_containment.2 exHostImpLinkErr exOptsShallow 10 exA exA
      (by simp [exHostImpLinkErr]),
    claim8_failure_containment.1 exHostRefErr exOptsShallow 10 exA exA 0 rfl⟩

/-! ## Claim C9 -/

/-- C9: every walk terminates on every finite relation graph — a finite
closed universe `U` of URIs containing the seed and closed under candidate
discovery — including cyclic ones: fuel `|U| + 1` always suffices because a
file is enqueued only at the moment it is first added to the visited set,
so each file is dequeued and explored at most once per walk. -/
theorem claim9_walk_terminates (h : Host) (o : WalkerOptions) (seed : Uri)
    (U : Finset Uri) (hseed : seed ∈ U)
    (hclosed : ∀ x ∈ U, ∀ y ∈ nodeCandidates h o x, y ∈ U) :
    ∃ res, walk h o (U.card + 1) seed = some res := by
  have hcard : 1 ≤ U.card := Finset.card_pos.mpr ⟨seed, hseed⟩
  have hst0 : addToQueue ⟨[], [], []⟩ seed 0 =
      ⟨[seed], [(seed, 0)], []⟩ := by
    simp [addToQueue]
  have hinv : TermInv U (addToQueue ⟨[], [], []⟩ seed 0) := by
    rw [hst0]
    refine ⟨List.nodup_singleton seed, ?_, ?_⟩
    · intro x hx
      simp only [List.mem_singleton] at hx
      exact hx ▸ hseed
    · intro e he
      simp only [List.mem_singleton] at he
      simp [he]
  have hmeas : (addToQueue ⟨[], [], []⟩ seed 0).queue.length +
      (U.card - (addToQueue ⟨[], [], []⟩ seed 0).visited.length) < U.card + 1 := by
    rw [hst0]
    simp only [List.length_singleton]
    omega
  obtain ⟨fin, hfin⟩ :=
    walkLoop_terminates h o U hclosed (U.card + 1) (addToQueue ⟨[], [], []⟩ seed 0) hinv hmeas
  exact ⟨fin.results, by rw [walk, hfin]; rfl⟩

/-- Witness for C9 at a concrete two-file cyclic host: `a.ts` and `b.ts`
link to each other, and the walk still completes. -/
theorem claim9_witness :
    ∃ res, walk exHostCyc exOptsShallow (({exA, exB} : Finset Uri).card + 1) exA = some res :=
  claim9_walk_terminates exHostCyc exOptsShallow exA {exA, exB} (by decide) (by decide)

/-! ## Claim C2 -/

/-- C2: for every walk with `maxFiles = 0` (unlimited budget) over a finite
(acyclic) relation graph — a finite universe `U` containing the seed and
closed under candidate discovery — the walk terminates, and the emitted
related refs are exactly the admissible files reachable from the seed
within `maxDepth` candidate-discovery steps, the seed itself excluded.
(The visited-set mechanism makes acyclicity unnecessary for the proof; the
hypothesis is retained as stated in the claim.) -/
theorem claim2_unlimited_walk_computes_closure (h : Host) (o : WalkerOptions)
    (seed : Uri) (U : Finset Uri)
    (hmf : o.maxFiles = 0) (hseed : seed ∈ U)
    (hclosed : ∀ x ∈ U, ∀ y ∈ nodeCandidates h o x, y ∈ U)
    (hacyc : AcyclicRel h o) :
    ∃ res, walk h o (U.card + 1) seed = some res ∧
      ∀ v : Uri, v ∈ res ↔
        (v ≠ seed ∧ ∃ n, n ≤ o.maxDepth ∧ PathN h o seed n v) := by
  have _ := hacyc
  have hcard : 1 ≤ U.card := Finset.card_pos.mpr ⟨seed, hseed⟩
  have hst0 : addToQueue ⟨[], [], []⟩ seed 0 = ⟨[seed], [(seed, 0)], []⟩ := by
    simp [addToQueue]
  have hinv : TermInv U (addToQueue ⟨[], [], []⟩ seed 0) := by
    rw [hst0]
    refine ⟨List.nodup_singleton seed, ?_, ?_⟩
    · intro x hx
      simp only [List.mem_singleton] at hx
      exact hx ▸ hseed
    · intro e he
      simp only [List.mem_singleton] at he
      simp [he]
  have hmeas : (addToQueue ⟨[], [], []⟩ seed 0).queue.length +
      (U.card - (addToQueue ⟨[], [], []⟩ seed 0).visited.length) < U.card + 1 := by
    rw [hst0]
    simp only [List.length_singleton]
    omega
  obtain ⟨fin, hfin⟩ :=
    walkLoop_terminates h o U hclosed (U.card + 1) (addToQueue ⟨[], [], []⟩ seed 0)
      hinv hmeas
  have herase : eraseG (gAdd ⟨[], [], []⟩ seed 0) = addToQueue ⟨[], [], []⟩ seed 0 := by
    rw [eraseG_gAdd]
    rfl
  have hcomm := gWalkLoop_erase h o hmf (U.card + 1) (gAdd ⟨[], [], []⟩ seed 0)
  rw [herase, hfin] at hcomm
  cases hg : gWalkLoop h o (U.card + 1) (gAdd ⟨[], [], []⟩ seed 0) with
  | none =>
    rw [hg] at hcomm
    simp at hcomm
  | some gfin =>
    rw [hg] at hcomm
    have hfe : fin = eraseG gfin := by
      simpa using hcomm
    obtain ⟨hGfin, hqe⟩ :=
      gWalkLoop_inv h o seed (U.card + 1) _ gfin (gInv_init h o seed) hg
    refine ⟨fin.results, ?_, ?_⟩
    · rw [walk, hfin]
      rfl
    · intro v
      have hres : fin.results = gfin.gresults := by
        rw [hfe]
        rfl
      rw [hres]
      constructor
      · intro hv
        obtain ⟨d, hd0, hvd⟩ := (hGfin.rsp v).mp hv
        rcases hGfin.sdp _ hvd with ⟨_, hdz⟩ | ⟨h1, h2, h3⟩
        · simp only at hdz
          omega
        · refine ⟨?_, d, h2, h3⟩
          intro hveq
          subst hveq
          have := nodup_fst_unique hGfin.vn hvd hGfin.sz
          omega
      · rintro ⟨hne, n, hnle, hpath⟩
        obtain ⟨d, hdn, hvd⟩ := gInv_complete h o seed hGfin hqe n v hpath hnle
        rcases hGfin.sdp _ hvd with ⟨hvs, _⟩ | ⟨h1, _, _⟩
        · exact absurd hvs hne
        · exact (hGfin.rsp v).mpr ⟨d, by omega, hvd⟩

/-- The candidate lists of the two-link fixture host, in closed form. -/
lemma exHostTwo_candidates (v : Uri) :
    nodeCandidates exHostTwo exOptsShallow v = if v = exA then [exB, exC] else [] := by
  by_cases hv : v = exA
  · subst hv
    rw [if_pos rfl]
    decide
  · rw [if_neg hv]
    simp [nodeCandidates, exHostTwo, exHostBase, hv, scanImports, scanImportsAux,
      exOptsShallow]

/-- Nothing reaches `a.ts` except trivially. -/
lemma exHostTwo_only_refl_to_exA : ∀ (s : Uri) (m : Nat),
    PathN exHostTwo exOptsShallow s m exA → s = exA ∧ m = 0 := by
  intro s m hp
  cases hp with
  | refl => exact ⟨rfl, rfl⟩
  | step hp' hw =>
    rename_i v0
    exfalso
    rw [exHostTwo_candidates v0] at hw
    by_cases hv : v0 = exA
    · rw [if_pos hv] at hw
      exact absurd hw (by decide)
    · rw [if_neg hv] at hw
      simp at hw

/-- The two-link fixture's relation graph is acyclic. -/
lemma exHostTwo_acyclic : AcyclicRel exHostTwo exOptsShallow := by
  intro u n hn hp
  cases hp with
  | refl => omega
  | step hp' hw =>
    rename_i v0
    rw [exHostTwo_candidates v0] at hw
    by_cases hv : v0 = exA
    · rw [if_pos hv] at hw
      subst hv
      obtain ⟨hs, _⟩ := exHostTwo_only_refl_to_exA u _ hp'
      subst hs
      exact absurd hw (by decide)
    · rw [if_neg hv] at hw
      simp at hw

/-- Witness for C2 at the concrete acyclic host `a.ts → {b.ts, c.ts}`. -/
theorem claim2_witness :
    ∃ res, walk exHostTwo exOptsShallow
        (({exA, exB, exC} : Finset Uri).card + 1) exA = some res ∧
      ∀ v : Uri, v ∈ res ↔
        (v ≠ exA ∧ ∃ n, n ≤ exOptsShallow.maxDepth ∧
          PathN exHostTwo exOptsShallow exA n v) :=
  claim2_unlimited_walk_computes_closure exHostTwo exOptsShallow exA
    {exA, exB, exC} rfl (by decide) (by decide) exHostTwo_acyclic

/-! ## Claim C3 -/

/-- Counterexample to C3 as stated: with `maxFiles = 1`, a single node whose
link provider returns two admissible candidates makes the walk emit two
related refs — the budget is not enforced during the processing of a single
node's links. -/
theorem claim3_counterexample :
    walk exHostTwo { exOptsShallow with maxFiles := 1 } 10 exA = some [exB, exC] ∧
    ¬ ([exB, exC].length ≤ { exOptsShallow with maxFiles := 1 }.maxFiles) :=
  ⟨by decide, by decide⟩

/-- C3 (amended): the Walker checks its file budget only between queue nodes
(and between symbol lookups), so with `maxFiles > 0` a walk can overshoot
within a single node, but never beyond `maxFiles - 1` plus one node's
candidate count; the `addedCount` accounting lives in the Coordinator:
`expandContext` returns a working set whose size is exactly the initial
set's size plus `addedCount`, with `addedCount ≤ maxFiles`. -/
theorem claim3_budget_accounting :
    (∀ (h : Host) (o : WalkerOptions) (fuel : Nat) (seed : Uri) (res : List Uri) (B : Nat),
        walk h o fuel seed = some res → 0 < o.maxFiles →
        (∀ u : Uri, (nodeCandidates h o u).length ≤ B) →
        res.length ≤ o.maxFiles - 1 + B) ∧
    (∀ (walkFn : Uri → List Uri) (initial : List Uri) (cfg : ExpandConfig),
        (expandContext walkFn initial cfg).1.length =
          (initial.foldl insertNew []).length + (expandContext walkFn initial cfg).2 ∧
        (expandContext walkFn initial cfg).2 ≤ cfg.maxFiles) := by
  constructor
  · intro h o fuel seed res B hw hmf hB
    unfold walk at hw
    cases hl : walkLoop h o fuel (addToQueue ⟨[], [], []⟩ seed 0) with
    | none => simp [hl] at hw
    | some fin =>
      have hres : fin.results = res := by simp [hl] at hw; exact hw
      have := walkLoop_results_bound h o B hB hmf fuel _ fin hl
      have hinit : (addToQueue ⟨[], [], []⟩ seed 0).results.length = 0 := by
        simp [addToQueue]
      rw [hinit, hres] at this
      omega
  · exact expandContext_spec

/-- Witness for the amended C3 at concrete inputs: the overshooting walk of
the counterexample still satisfies the `maxFiles - 1 + B` bound, and a
concrete coordinator merge satisfies the `addedCount` equations. -/
theorem claim3_witness :
    [exB, exC].length ≤ 1 - 1 + 2 ∧
    (expandContext (fun _ => [exB, exC]) [exA] ⟨true, .shallow, 1, []⟩).1.length =
      ([exA].foldl insertNew []).length +
        (expandContext (fun _ => [exB, exC]) [exA] ⟨true, .shallow, 1, []⟩).2 := by
  constructor
  · refine claim3_budget_accounting.1 exHostTwo { exOptsShallow with maxFiles := 1 } 10 exA
      [exB, exC] 2 (by decide) (by decide) ?_
    intro u
    by_cases hu : u = exA
    · subst hu; decide
    · simp [nodeCandidates, exHostTwo, exHostBase, hu, scanImports, scanImportsAux,
        exOptsShallow]
  · exact (claim3_budget_accounting.2 (fun _ => [exB, exC]) [exA] ⟨true, .shallow, 1, []⟩).1

section PatternMatching

/-! ## Pattern matching: the literal branch (C7) and the wildcard branch (C6)

The lemmas of this section relate `isIgnored` to the two comparison
matchers: for literal patterns a direct computation, and for wildcard
patterns a staged syntactic analysis of the `globToRegex` rewrite pipeline
over the well-formed token grammar `GlobTok`, followed by an equivalence
between the regex engine and the declarative semantics `SemMatch`. -/

lemma contains_normSlashes (p : List Char) (a : Char) (h1 : a ≠ '/')
    (h2 : a ≠ '\\') : (normSlashes p).contains a = p.contains a := by
  induction p with
  | nil => rfl
  | cons c cs ih =>
    simp only [normSlashes, List.map_cons, List.contains_cons] at ih ⊢
    by_cases hc : c = '\\'
    · subst hc
      rw [if_pos rfl, beq_eq_false_iff_ne.mpr h1, beq_eq_false_iff_ne.mpr h2]
      exact ih
    · rw [if_neg hc, ih]

lemma hasWildcard_normSlashes (p : List Char) :
    hasWildcard (normSlashes p) = hasWildcard p := by
  unfold hasWildcard
  rw [contains_normSlashes p '*' (by decide) (by decide),
    contains_normSlashes p '?' (by decide) (by decide)]


lemma ipo_nil (l : List Char) : [].isPrefixOf l = true := by
  cases l <;> rfl

lemma ipo_cons_cons (a b : Char) (as bs : List Char) :
    (a :: as).isPrefixOf (b :: bs) = (a == b && as.isPrefixOf bs) := rfl

lemma replaceAll_nil (pat rep : List Char) : replaceAll pat rep [] = [] := by
  rw [replaceAll]

lemma replaceAll_skip (pat rep : List Char) (c : Char) (cs : List Char)
    (h : ¬ pat.isPrefixOf (c :: cs) = true) :
    replaceAll pat rep (c :: cs) = c :: replaceAll pat rep cs := by
  rw [replaceAll, dif_neg]
  intro hc
  exact h hc.2

lemma isPrefixOf_self_append (p t : List Char) :
    p.isPrefixOf (p ++ t) = true := by
  induction p with
  | nil => exact ipo_nil t
  | cons c cs ih => simpa [ipo_cons_cons] using ih

lemma replaceAll_hit (pat rep : List Char) (hne : pat ≠ []) (s : List Char) :
    replaceAll pat rep (pat ++ s) = rep ++ replaceAll pat rep s := by
  match pat, hne with
  | p :: ps, _ =>
    have hdrop : List.drop (p :: ps).length ((p :: ps) ++ s) = s :=
      List.drop_left _ _
    rw [List.cons_append] at hdrop
    rw [List.cons_append, replaceAll, dif_pos, hdrop]
    refine ⟨by simp, ?_⟩
    rw [← List.cons_append]
    exact isPrefixOf_self_append _ _

lemma replaceAll_chunk (pat rep : List Char) (xs s : List Char)
    (hno : ∀ i, i < xs.length → ¬ pat.isPrefixOf (xs.drop i ++ s) = true) :
    replaceAll pat rep (xs ++ s) = xs ++ replaceAll pat rep s := by
  induction xs with
  | nil => simp
  | cons c cs ih =>
    have hstep : replaceAll pat rep (cs ++ s) = cs ++ replaceAll pat rep s := by
      apply ih
      intro i hi
      have := hno (i + 1) (by simp only [List.length_cons]; omega)
      simpa using this
    have h0 : ¬ pat.isPrefixOf (c :: (cs ++ s)) = true := by
      have := hno 0 (by simp)
      simpa using this
    rw [List.cons_append, replaceAll_skip pat rep c (cs ++ s) h0, hstep]
    simp

lemma okLit_facts (c : Char) (h : okLit (.lit c) = true) :
    c ≠ '*' ∧ c ≠ '?' ∧ c ≠ '\\' := by
  simp only [okLit, Bool.and_eq_true, decide_eq_true_eq] at h
  exact ⟨h.1.1, h.1.2, h.2⟩

lemma okPair_dstar_lit (c : Char) (h : okPair .dstar (.lit c) = true) :
    c ≠ '/' := by
  simp only [okPair, decide_eq_true_eq] at h
  exact h

lemma replaceAll_tokens (pat rep : List Char) (hne : pat ≠ [])
    (f g : GlobTok → List Char)
    (hrep : ∀ t : GlobTok, okLit t = true →
      (∃ suf : List Char, f t = pat ++ suf ∧ g t = rep ++ suf ∧
        ∀ i, i < suf.length → ∀ s' : List Char,
          ¬ pat.isPrefixOf (suf.drop i ++ s') = true) ∨
      g t = f t)
    (hlast : ∀ t : GlobTok, okLit t = true → g t = f t →
      ∀ i, i < (f t).length → ¬ pat.isPrefixOf ((f t).drop i) = true)
    (hpair : ∀ t t' : GlobTok, okLit t = true → okLit t' = true →
      okPair t t' = true → g t = f t →
      ∀ i, i < (f t).length → ∀ s' : List Char,
        ¬ pat.isPrefixOf ((f t).drop i ++ (f t' ++ s')) = true) :
    ∀ ts : List GlobTok, wfGlob ts = true →
      replaceAll pat rep (ts.flatMap f) = ts.flatMap g := by
  intro ts
  induction ts with
  | nil => intro _; exact replaceAll_nil pat rep
  | cons t rest ih =>
    intro hwf
    have hwf2 := hwf
    simp only [wfGlob, Bool.and_eq_true] at hwf2
    obtain ⟨hall, hpairs⟩ := hwf2
    have hokt : okLit t = true := List.all_eq_true.mp hall t (by simp)
    have hwf' : wfGlob rest = true := by
      simp only [wfGlob, Bool.and_eq_true]
      refine ⟨?_, ?_⟩
      · exact List.all_eq_true.mpr fun x hx =>
          List.all_eq_true.mp hall x (by simp [hx])
      · cases rest with
        | nil => rfl
        | cons b bs =>
          have h2 : (okPair t b && okPairs (b :: bs)) = true := hpairs
          simp only [Bool.and_eq_true] at h2
          exact h2.2
    rw [List.flatMap_cons, List.flatMap_cons]
    rcases hrep t hokt with ⟨suf, hf, hg, hsuf⟩ | hg
    · rw [hf, hg, List.append_assoc, replaceAll_hit pat rep hne,
        replaceAll_chunk, ih hwf', List.append_assoc]
      intro i hi
      exact hsuf i hi (rest.flatMap f)
    · rw [hg, replaceAll_chunk, ih hwf']
      intro i hi
      cases rest with
      | nil =>
        have := hlast t hokt hg i hi
        simpa using this
      | cons t' rest' =>
        rw [List.flatMap_cons]
        have hokt' : okLit t' = true := List.all_eq_true.mp hall t' (by simp)
        have hpk : okPair t t' = true := by
          have h2 : (okPair t t' && okPairs (t' :: rest')) = true := hpairs
          simp only [Bool.and_eq_true] at h2
          exact h2.1
        exact hpair t t' hokt hokt' hpk hg i hi (rest'.flatMap f)

lemma escTok_render (t : GlobTok) :
    (t.render).flatMap escapeChar = escTok t := by
  cases t <;> simp [GlobTok.render, escTok, escapeChar, specialChars]

lemma escape_flatMap (ts : List GlobTok) :
    (ts.flatMap GlobTok.render).flatMap escapeChar = ts.flatMap escTok := by
  induction ts with
  | nil => rfl
  | cons t rest ih =>
    rw [List.flatMap_cons, List.flatMap_cons, List.flatMap_append, ih,
      escTok_render]

lemma stage1_dead (ts : List GlobTok) (hwf : wfGlob ts = true) :
    replaceAll ("\\*\\*\\/").toList ("(?:.*/)?").toList (ts.flatMap escTok) =
      ts.flatMap escTok := by
  refine replaceAll_tokens _ _ (by decide) escTok escTok
    (fun t _ => Or.inr rfl) ?_ ?_ ts hwf
  · intro t hok _ i hi
    cases t with
    | lit c =>
      obtain ⟨hc1, hc2, hc3⟩ := okLit_facts c hok
      by_cases hc : c ∈ specialChars
      · have hi2 : i < 2 := by simpa [escTok, escapeChar, hc] using hi
        interval_cases i <;>
          simp [List.isPrefixOf, escTok, escapeChar, hc, Ne.symm hc1,
            Ne.symm hc3]
      · have hi1 : i < 1 := by simpa [escTok, escapeChar, hc] using hi
        interval_cases i <;>
          simp [List.isPrefixOf, escTok, escapeChar, hc, Ne.symm hc3]
    | q =>
      have hi2 : i < 2 := by simpa [escTok] using hi
      interval_cases i <;> simp [List.isPrefixOf, escTok]
    | star =>
      have hi2 : i < 2 := by simpa [escTok] using hi
      interval_cases i <;> simp [List.isPrefixOf, escTok]
    | dstar =>
      have hi4 : i < 4 := by simpa [escTok] using hi
      interval_cases i <;> simp [List.isPrefixOf, escTok]
    | dstarSlash =>
      have hi5 : i < 5 := by simpa [escTok] using hi
      interval_cases i <;> simp [List.isPrefixOf, escTok]
  · intro t t' hok hok' hpk _ i hi s'
    cases t with
    | lit c =>
      obtain ⟨hc1, hc2, hc3⟩ := okLit_facts c hok
      by_cases hc : c ∈ specialChars
      · have hi2 : i < 2 := by simpa [escTok, escapeChar, hc] using hi
        interval_cases i <;>
          simp [List.isPrefixOf, escTok, escapeChar, hc, Ne.symm hc1,
            Ne.symm hc3]
      · have hi1 : i < 1 := by simpa [escTok, escapeChar, hc] using hi
        interval_cases i <;>
          simp [List.isPrefixOf, escTok, escapeChar, hc, Ne.symm hc3]
    | q =>
      have hi2 : i < 2 := by simpa [escTok] using hi
      interval_cases i <;> simp [List.isPrefixOf, escTok]
    | star =>
      cases t' with
      | star => exact absurd hpk (by decide)
      | dstar => exact absurd hpk (by decide)
      | dstarSlash => exact absurd hpk (by decide)
      | q =>
        have hi2 : i < 2 := by simpa [escTok] using hi
        interval_cases i <;> simp [List.isPrefixOf, escTok]
      | lit c =>
        obtain ⟨hc1, hc2, hc3⟩ := okLit_facts c hok'
        have hi2 : i < 2 := by simpa [escTok] using hi
        by_cases hc : c ∈ specialChars
        · interval_cases i <;>
            simp [List.isPrefixOf, escTok, escapeChar, hc, Ne.symm hc1,
              Ne.symm hc3]
        · interval_cases i <;>
            simp [List.isPrefixOf, escTok, escapeChar, hc, Ne.symm hc1,
              Ne.symm hc3]
    | dstar =>
      cases t' with
      | star => exact absurd hpk (by decide)
      | dstar => exact absurd hpk (by decide)
      | dstarSlash => exact absurd hpk (by decide)
      | q =>
        have hi4 : i < 4 := by simpa [escTok] using hi
        interval_cases i <;> simp [List.isPrefixOf, escTok]
      | lit c =>
        have hslash : c ≠ '/' := okPair_dstar_lit c hpk
        obtain ⟨hc1, hc2, hc3⟩ := okLit_facts c hok'
        have hi4 : i < 4 := by simpa [escTok] using hi
        by_cases hc : c ∈ specialChars
        · interval_cases i <;>
            simp [List.isPrefixOf, escTok, escapeChar, hc, Ne.symm hc1,
              Ne.symm hc3, Ne.symm hslash]
        · interval_cases i <;>
            simp [List.isPrefixOf, escTok, escapeChar, hc, Ne.symm hc1,
              Ne.symm hc3, Ne.symm hslash]
    | dstarSlash =>
      have hi5 : i < 5 := by simpa [escTok] using hi
      interval_cases i <;> simp [List.isPrefixOf, escTok]

lemma stage2_lemma (ts : List GlobTok) (hwf : wfGlob ts = true) :
    replaceAll ("\\*\\*").toList (".*").toList (ts.flatMap escTok) =
      ts.flatMap stage2Tok := by
  refine replaceAll_tokens _ _ (by decide) escTok stage2Tok ?_ ?_ ?_ ts hwf
  · intro t _
    cases t with
    | dstar =>
      refine Or.inl ⟨[], rfl, rfl, ?_⟩
      intro i hi s'
      simp at hi
    | dstarSlash =>
      refine Or.inl ⟨['/'], rfl, rfl, ?_⟩
      intro i hi s'
      have hi1 : i < 1 := by simpa using hi
      interval_cases i <;> simp [List.isPrefixOf]
    | lit c => exact Or.inr rfl
    | q => exact Or.inr rfl
    | star => exact Or.inr rfl
  · intro t hok hkeep i hi
    cases t with
    | dstar => exact absurd hkeep (by decide)
    | dstarSlash => exact absurd hkeep (by decide)
    | lit c =>
      obtain ⟨hc1, hc2, hc3⟩ := okLit_facts c hok
      by_cases hc : c ∈ specialChars
      · have hi2 : i < 2 := by simpa [escTok, escapeChar, hc] using hi
        interval_cases i <;>
          simp [List.isPrefixOf, escTok, escapeChar, hc, Ne.symm hc1,
            Ne.symm hc3]
      · have hi1 : i < 1 := by simpa [escTok, escapeChar, hc] using hi
        interval_cases i <;>
          simp [List.isPrefixOf, escTok, escapeChar, hc, Ne.symm hc3]
    | q =>
      have hi2 : i < 2 := by simpa [escTok] using hi
      interval_cases i <;> simp [List.isPrefixOf, escTok]
    | star =>
      have hi2 : i < 2 := by simpa [escTok] using hi
      interval_cases i <;> simp [List.isPrefixOf, escTok]
  · intro t t' hok hok' hpk hkeep i hi s'
    cases t with
    | dstar => exact absurd hkeep (by decide)
    | dstarSlash => exact absurd hkeep (by decide)
    | lit c =>
      obtain ⟨hc1, hc2, hc3⟩ := okLit_facts c hok
      by_cases hc : c ∈ specialChars
      · have hi2 : i < 2 := by simpa [escTok, escapeChar, hc] using hi
        interval_cases i <;>
          simp [List.isPrefixOf, escTok, escapeChar, hc, Ne.symm hc1,
            Ne.symm hc3]
      · have hi1 : i < 1 := by simpa [escTok, escapeChar, hc] using hi
        interval_cases i <;>
          simp [List.isPrefixOf, escTok, escapeChar, hc, Ne.symm hc3]
    | q =>
      have hi2 : i < 2 := by simpa [escTok] using hi
      interval_cases i <;> simp [List.isPrefixOf, escTok]
    | star =>
      cases t' with
      | star => exact absurd hpk (by decide)
      | dstar => exact absurd hpk (by decide)
      | dstarSlash => exact absurd hpk (by decide)
      | q =>
        have hi2 : i < 2 := by simpa [escTok] using hi
        interval_cases i <;> simp [List.isPrefixOf, escTok]
      | lit c =>
        obtain ⟨hc1, hc2, hc3⟩ := okLit_facts c hok'
        have hi2 : i < 2 := by simpa [escTok] using hi
        by_cases hc : c ∈ specialChars
        · interval_cases i <;>
            simp [List.isPrefixOf, escTok, escapeChar, hc, Ne.symm hc1,
              Ne.symm hc3]
        · interval_cases i <;>
            simp [List.isPrefixOf, escTok, escapeChar, hc, Ne.symm hc1,
              Ne.symm hc3]

lemma stage3_lemma (ts : List GlobTok) (hwf : wfGlob ts = true) :
    replaceAll ("\\*").toList ("[^/]*").toList (ts.flatMap stage2Tok) =
      ts.flatMap stage3Tok := by
  refine replaceAll_tokens _ _ (by decide) stage2Tok stage3Tok ?_ ?_ ?_ ts hwf
  · intro t _
    cases t with
    | star =>
      refine Or.inl ⟨[], rfl, rfl, ?_⟩
      intro i hi s'
      simp at hi
    | lit c => exact Or.inr rfl
    | q => exact Or.inr rfl
    | dstar => exact Or.inr rfl
    | dstarSlash => exact Or.inr rfl
  · intro t hok hkeep i hi
    cases t with
    | star => exact absurd hkeep (by decide)
    | lit c =>
      obtain ⟨hc1, hc2, hc3⟩ := okLit_facts c hok
      by_cases hc : c ∈ specialChars
      · have hi2 : i < 2 := by
          simpa [stage2Tok, escTok, escapeChar, hc] using hi
        interval_cases i <;>
          simp [List.isPrefixOf, stage2Tok, escTok, escapeChar, hc,
            Ne.symm hc1, Ne.symm hc3]
      · have hi1 : i < 1 := by
          simpa [stage2Tok, escTok, escapeChar, hc] using hi
        interval_cases i <;>
          simp [List.isPrefixOf, stage2Tok, escTok, escapeChar, hc,
            Ne.symm hc3]
    | q =>
      have hi2 : i < 2 := by simpa [stage2Tok, escTok] using hi
      interval_cases i <;> simp [List.isPrefixOf, stage2Tok, escTok]
    | dstar =>
      have hi2 : i < 2 := by simpa [stage2Tok] using hi
      interval_cases i <;> simp [List.isPrefixOf, stage2Tok]
    | dstarSlash =>
      have hi3 : i < 3 := by simpa [stage2Tok] using hi
      interval_cases i <;> simp [List.isPrefixOf, stage2Tok]
  · intro t t' hok hok' hpk hkeep i hi s'
    cases t with
    | star => exact absurd hkeep (by decide)
    | lit c =>
      obtain ⟨hc1, hc2, hc3⟩ := okLit_facts c hok
      by_cases hc : c ∈ specialChars
      · have hi2 : i < 2 := by
          simpa [stage2Tok, escTok, escapeChar, hc] using hi
        interval_cases i <;>
          simp [List.isPrefixOf, stage2Tok, escTok, escapeChar, hc,
            Ne.symm hc1, Ne.symm hc3]
      · have hi1 : i < 1 := by
          simpa [stage2Tok, escTok, escapeChar, hc] using hi
        interval_cases i <;>
          simp [List.isPrefixOf, stage2Tok, escTok, escapeChar, hc,
            Ne.symm hc3]
    | q =>
      have hi2 : i < 2 := by simpa [stage2Tok, escTok] using hi
      interval_cases i <;> simp [List.isPrefixOf, stage2Tok, escTok]
    | dstar =>
      have hi2 : i < 2 := by simpa [stage2Tok] using hi
      interval_cases i <;> simp [List.isPrefixOf, stage2Tok]
    | dstarSlash =>
      have hi3 : i < 3 := by simpa [stage2Tok] using hi
      interval_cases i <;> simp [List.isPrefixOf, stage2Tok]

lemma stage4_lemma (ts : List GlobTok) (hwf : wfGlob ts = true) :
    replaceAll ("\\?").toList (".").toList (ts.flatMap stage3Tok) =
      ts.flatMap stage4Tok := by
  refine replaceAll_tokens _ _ (by decide) stage3Tok stage4Tok ?_ ?_ ?_ ts hwf
  · intro t _
    cases t with
    | q =>
      refine Or.inl ⟨[], rfl, rfl, ?_⟩
      intro i hi s'
      simp at hi
    | lit c => exact Or.inr rfl
    | star => exact Or.inr rfl
    | dstar => exact Or.inr rfl
    | dstarSlash => exact Or.inr rfl
  · intro t hok hkeep i hi
    cases t with
    | q => exact absurd hkeep (by decide)
    | lit c =>
      obtain ⟨hc1, hc2, hc3⟩ := okLit_facts c hok
      by_cases hc : c ∈ specialChars
      · have hi2 : i < 2 := by
          simpa [stage3Tok, stage2Tok, escTok, escapeChar, hc] using hi
        interval_cases i <;>
          simp [List.isPrefixOf, stage3Tok, stage2Tok, escTok, escapeChar,
            hc, Ne.symm hc2, Ne.symm hc3]
      · have hi1 : i < 1 := by
          simpa [stage3Tok, stage2Tok, escTok, escapeChar, hc] using hi
        interval_cases i <;>
          simp [List.isPrefixOf, stage3Tok, stage2Tok, escTok, escapeChar,
            hc, Ne.symm hc3]
    | star =>
      have hi5 : i < 5 := by simpa [stage3Tok] using hi
      interval_cases i <;> simp [List.isPrefixOf, stage3Tok]
    | dstar =>
      have hi2 : i < 2 := by simpa [stage3Tok, stage2Tok] using hi
      interval_cases i <;> simp [List.isPrefixOf, stage3Tok, stage2Tok]
    | dstarSlash =>
      have hi3 : i < 3 := by simpa [stage3Tok, stage2Tok] using hi
      interval_cases i <;> simp [List.isPrefixOf, stage3Tok, stage2Tok]
  · intro t t' hok hok' hpk hkeep i hi s'
    cases t with
    | q => exact absurd hkeep (by decide)
    | lit c =>
      obtain ⟨hc1, hc2, hc3⟩ := okLit_facts c hok
      by_cases hc : c ∈ specialChars
      · have hi2 : i < 2 := by
          simpa [stage3Tok, stage2Tok, escTok, escapeChar, hc] using hi
        interval_cases i <;>
          simp [List.isPrefixOf, stage3Tok, stage2Tok, escTok, escapeChar,
            hc, Ne.symm hc2, Ne.symm hc3]
      · have hi1 : i < 1 := by
          simpa [stage3Tok, stage2Tok, escTok, escapeChar, hc] using hi
        interval_cases i <;>
          simp [List.isPrefixOf, stage3Tok, stage2Tok, escTok, escapeChar,
            hc, Ne.symm hc3]
    | star =>
      have hi5 : i < 5 := by simpa [stage3Tok] using hi
      interval_cases i <;> simp [List.isPrefixOf, stage3Tok]
    | dstar =>
      have hi2 : i < 2 := by simpa [stage3Tok, stage2Tok] using hi
      interval_cases i <;> simp [List.isPrefixOf, stage3Tok, stage2Tok]
    | dstarSlash =>
      have hi3 : i < 3 := by simpa [stage3Tok, stage2Tok] using hi
      interval_cases i <;> simp [List.isPrefixOf, stage3Tok, stage2Tok]

lemma parse_nil : parseRegex [] = [] := by rw [parseRegex]

lemma parse_optSeg (s : List Char) :
    parseRegex (('(' : Char) :: '?' :: ':' :: '.' :: '*' :: '/' :: ')' :: '?' :: s) =
      .roptSeg :: parseRegex s := by
  rw [parseRegex,
    if_pos (show ("(?:.*/)?").toList.isPrefixOf
      (('(' : Char) :: '?' :: ':' :: '.' :: '*' :: '/' :: ')' :: '?' :: s) = true
      from isPrefixOf_self_append (("(?:.*/)?").toList) s)]
  rfl

lemma parse_nonSlashStar (s : List Char) :
    parseRegex (('[' : Char) :: '^' :: '/' :: ']' :: '*' :: s) =
      .rnonSlashStar :: parseRegex s := by
  rw [parseRegex, if_neg (by simp [List.isPrefixOf]),
    if_pos (show ("[^/]*").toList.isPrefixOf
      (('[' : Char) :: '^' :: '/' :: ']' :: '*' :: s) = true
      from isPrefixOf_self_append (("[^/]*").toList) s)]
  rfl

lemma parse_dotStar (s : List Char) :
    parseRegex (('.' : Char) :: '*' :: s) = .rdotStar :: parseRegex s := by
  rw [parseRegex, if_neg (by simp [List.isPrefixOf]),
    if_neg (by simp [List.isPrefixOf]),
    if_pos (show (".*").toList.isPrefixOf (('.' : Char) :: '*' :: s) = true
      from isPrefixOf_self_append ((".*").toList) s)]
  rfl

lemma parse_dot (s : List Char) (h : ∀ r : List Char, s ≠ '*' :: r) :
    parseRegex (('.' : Char) :: s) = .rdot :: parseRegex s := by
  have hds : ((".*").toList.isPrefixOf ('.' :: s)) = false := by
    cases s with
    | nil => rfl
    | cons a r =>
      have ha : ('*' == a) = false := by
        rw [beq_eq_false_iff_ne]
        intro hcon
        exact h r (by rw [← hcon])
      simp [List.isPrefixOf, ha]
  rw [parseRegex.eq_def]
  dsimp only
  rw [if_neg (by simp [List.isPrefixOf]), if_neg (by simp [List.isPrefixOf]),
    if_neg (by rw [hds]; simp), if_pos rfl]

lemma parse_lit_escaped (d : Char) (s : List Char) :
    parseRegex (('\\' : Char) :: d :: s) = .rlit d :: parseRegex s := by
  rw [parseRegex, if_neg (by simp [List.isPrefixOf]),
    if_neg (by simp [List.isPrefixOf]), if_neg (by simp [List.isPrefixOf]),
    if_neg (by decide), if_pos rfl]

lemma parse_lit_plain (c : Char) (hc : c ∉ specialChars) (s : List Char) :
    parseRegex (c :: s) = .rlit c :: parseRegex s := by
  simp only [specialChars, List.mem_cons, List.not_mem_nil, or_false,
    not_or] at hc
  obtain ⟨hdot, hplus, hcarA, hdol, hlb, hrb, hlp, hrp, hbar, hsb, hsbr, hbs,
    hstar, hq⟩ := hc
  rw [parseRegex.eq_def]
  dsimp only
  rw [if_neg (by simp [List.isPrefixOf, Ne.symm hlp]),
    if_neg (by simp [List.isPrefixOf, Ne.symm hsb]),
    if_neg (by simp [List.isPrefixOf, Ne.symm hdot]),
    if_neg hdot, if_neg hbs]

lemma flatMap_stage4_ne_star (ts : List GlobTok) (hall : ts.all okLit = true) :
    ∀ r : List Char, ts.flatMap stage4Tok ≠ '*' :: r := by
  intro r hcon
  cases ts with
  | nil => simp at hcon
  | cons t rest =>
    have hok : okLit t = true := List.all_eq_true.mp hall t (by simp)
    rw [List.flatMap_cons] at hcon
    cases t with
    | lit c =>
      obtain ⟨hc1, hc2, hc3⟩ := okLit_facts c hok
      by_cases hc : c ∈ specialChars
      · simp [stage4Tok, stage3Tok, stage2Tok, escTok, escapeChar,
          hc] at hcon
      · simp [stage4Tok, stage3Tok, stage2Tok, escTok, escapeChar,
          hc] at hcon
        exact hc1 hcon.1
    | q => simp [stage4Tok] at hcon
    | star => simp [stage4Tok, stage3Tok] at hcon
    | dstar => simp [stage4Tok, stage3Tok, stage2Tok] at hcon
    | dstarSlash =>
      simp [stage4Tok, stage3Tok, stage2Tok] at hcon

lemma parse_flatMap (ts : List GlobTok) (hall : ts.all okLit = true) :
    parseRegex (ts.flatMap stage4Tok) = ts.flatMap GlobTok.compile := by
  induction ts with
  | nil => exact parse_nil
  | cons t rest ih =>
    have hok : okLit t = true := List.all_eq_true.mp hall t (by simp)
    have hall' : rest.all okLit = true := List.all_eq_true.mpr fun x hx =>
      List.all_eq_true.mp hall x (by simp [hx])
    rw [List.flatMap_cons, List.flatMap_cons]
    cases t with
    | lit c =>
      by_cases hc : c ∈ specialChars
      · have he : stage4Tok (GlobTok.lit c) ++ rest.flatMap stage4Tok =
            '\\' :: c :: rest.flatMap stage4Tok := by
          simp [stage4Tok, stage3Tok, stage2Tok, escTok,
            escapeChar, hc]
        rw [he, parse_lit_escaped, ih hall']
        rfl
      · have he : stage4Tok (GlobTok.lit c) ++ rest.flatMap stage4Tok =
            c :: rest.flatMap stage4Tok := by
          simp [stage4Tok, stage3Tok, stage2Tok, escTok,
            escapeChar, hc]
        rw [he, parse_lit_plain c hc, ih hall']
        rfl
    | q =>
      have he : stage4Tok GlobTok.q ++ rest.flatMap stage4Tok =
          '.' :: rest.flatMap stage4Tok := rfl
      rw [he, parse_dot _ (flatMap_stage4_ne_star rest hall'), ih hall']
      rfl
    | star =>
      have he : stage4Tok GlobTok.star ++ rest.flatMap stage4Tok =
          '[' :: '^' :: '/' :: ']' :: '*' :: rest.flatMap stage4Tok := rfl
      rw [he, parse_nonSlashStar, ih hall']
      rfl
    | dstar =>
      have he : stage4Tok GlobTok.dstar ++ rest.flatMap stage4Tok =
          '.' :: '*' :: rest.flatMap stage4Tok := rfl
      rw [he, parse_dotStar, ih hall']
      rfl
    | dstarSlash =>
      have he : stage4Tok GlobTok.dstarSlash ++ rest.flatMap stage4Tok =
          '.' :: '*' :: '/' :: rest.flatMap stage4Tok := rfl
      rw [he, parse_dotStar, parse_lit_plain '/' (by decide), ih hall']
      rfl

lemma toNat_ofNat_valid (n : Nat) (h : n.isValidChar) :
    (Char.ofNat n).toNat = n := by
  unfold Char.ofNat
  rw [dif_pos h]
  rfl

lemma lowEq_slash (d : Char) : lowEq '/' d = true ↔ d = '/' := by
  constructor
  · intro h
    have h2 : ('/' : Char).toLower = d.toLower := by
      simpa [lowEq] using h
    have h3 : d.toLower = '/' := by rw [← h2]; rfl
    unfold Char.toLower at h3
    by_cases hcond : Char.toNat d ≥ 65 ∧ Char.toNat d ≤ 90
    · rw [if_pos hcond] at h3
      exfalso
      have h4 := congrArg Char.toNat h3
      rw [toNat_ofNat_valid (Char.toNat d + 32) (Or.inl (by omega))] at h4
      have h47 : Char.toNat '/' = 47 := rfl
      omega
    · rw [if_neg hcond] at h3
      exact h3
  · intro h
    subst h
    rfl

lemma rxMatch_nil_nil : rxMatch [] [] = true := by rw [rxMatch]

lemma rxMatch_nil_cons (c : Char) (s : List Char) :
    rxMatch [] (c :: s) = false := by rw [rxMatch]

lemma rxMatch_lit_nil (c : Char) (ts : List RTok) :
    rxMatch (.rlit c :: ts) [] = false := by rw [rxMatch]

lemma rxMatch_lit_cons (c : Char) (ts : List RTok) (d : Char) (s : List Char) :
    rxMatch (.rlit c :: ts) (d :: s) = (lowEq c d && rxMatch ts s) := by
  rw [rxMatch]

lemma rxMatch_dot_nil (ts : List RTok) : rxMatch (.rdot :: ts) [] = false := by
  rw [rxMatch]

lemma rxMatch_dot_cons (ts : List RTok) (d : Char) (s : List Char) :
    rxMatch (.rdot :: ts) (d :: s) = rxMatch ts s := by rw [rxMatch]

lemma rxMatch_dotStar_nil (ts : List RTok) :
    rxMatch (.rdotStar :: ts) [] = rxMatch ts [] := by
  rw [rxMatch]
  simp

lemma rxMatch_dotStar_cons (ts : List RTok) (c : Char) (s : List Char) :
    rxMatch (.rdotStar :: ts) (c :: s) =
      (rxMatch ts (c :: s) || rxMatch (.rdotStar :: ts) s) := by
  rw [rxMatch]

lemma rxMatch_nss_nil (ts : List RTok) :
    rxMatch (.rnonSlashStar :: ts) [] = rxMatch ts [] := by
  rw [rxMatch]
  simp

lemma rxMatch_nss_cons (ts : List RTok) (c : Char) (s : List Char) :
    rxMatch (.rnonSlashStar :: ts) (c :: s) =
      (rxMatch ts (c :: s) || (decide (c ≠ '/') && rxMatch (.rnonSlashStar :: ts) s)) := by
  rw [rxMatch]

lemma rxMatch_dotStar_iff (ts : List RTok) (s : List Char) :
    rxMatch (.rdotStar :: ts) s = true ↔
      ∃ a b : List Char, s = a ++ b ∧ rxMatch ts b = true := by
  induction s with
  | nil =>
    rw [rxMatch_dotStar_nil]
    constructor
    · intro h
      exact ⟨[], [], rfl, h⟩
    · rintro ⟨a, b, hab, hb⟩
      obtain ⟨ha, hb'⟩ := List.append_eq_nil.mp hab.symm
      subst ha
      subst hb'
      exact hb
  | cons c s' ih =>
    rw [rxMatch_dotStar_cons, Bool.or_eq_true, ih]
    constructor
    · rintro (h | ⟨a, b, hab, hb⟩)
      · exact ⟨[], c :: s', rfl, h⟩
      · exact ⟨c :: a, b, by rw [hab, List.cons_append], hb⟩
    · rintro ⟨a, b, hab, hb⟩
      cases a with
      | nil =>
        left
        rw [List.nil_append] at hab
        rw [hab]
        exact hb
      | cons a0 a' =>
        right
        rw [List.cons_append] at hab
        obtain ⟨h1, h2⟩ := List.cons.injEq .. ▸ hab
        exact ⟨a', b, h2, hb⟩

lemma rxMatch_nss_iff (ts : List RTok) (s : List Char) :
    rxMatch (.rnonSlashStar :: ts) s = true ↔
      ∃ a b : List Char, s = a ++ b ∧ (∀ x ∈ a, x ≠ '/') ∧
        rxMatch ts b = true := by
  induction s with
  | nil =>
    rw [rxMatch_nss_nil]
    constructor
    · intro h
      exact ⟨[], [], rfl, by simp, h⟩
    · rintro ⟨a, b, hab, _, hb⟩
      obtain ⟨ha, hb'⟩ := List.append_eq_nil.mp hab.symm
      subst ha
      subst hb'
      exact hb
  | cons c s' ih =>
    rw [rxMatch_nss_cons, Bool.or_eq_true, Bool.and_eq_true, ih]
    constructor
    · rintro (h | ⟨hc, a, b, hab, hns, hb⟩)
      · exact ⟨[], c :: s', rfl, by simp, h⟩
      · refine ⟨c :: a, b, by rw [hab, List.cons_append], ?_, hb⟩
        intro x hx
        rcases List.mem_cons.mp hx with hx | hx
        · subst hx
          exact of_decide_eq_true hc
        · exact hns x hx
    · rintro ⟨a, b, hab, hns, hb⟩
      cases a with
      | nil =>
        left
        rw [List.nil_append] at hab
        rw [hab]
        exact hb
      | cons a0 a' =>
        right
        rw [List.cons_append] at hab
        obtain ⟨h1, h2⟩ := List.cons.injEq .. ▸ hab
        subst h1
        refine ⟨decide_eq_true (hns c (by simp)), a', b, h2, ?_, hb⟩
        intro x hx
        exact hns x (by simp [hx])

lemma rxMatch_dotStarSlash_iff (ts : List RTok) (s : List Char) :
    rxMatch (.rdotStar :: .rlit '/' :: ts) s = true ↔
      ∃ a b : List Char, s = a ++ '/' :: b ∧ rxMatch ts b = true := by
  rw [rxMatch_dotStar_iff]
  constructor
  · rintro ⟨a, b, hab, hb⟩
    cases b with
    | nil => rw [rxMatch_lit_nil] at hb; cases hb
    | cons d b' =>
      rw [rxMatch_lit_cons, Bool.and_eq_true] at hb
      have hd : d = '/' := (lowEq_slash d).mp hb.1
      subst hd
      exact ⟨a, b', hab, hb.2⟩
  · rintro ⟨a, b, hab, hb⟩
    refine ⟨a, '/' :: b, hab, ?_⟩
    rw [rxMatch_lit_cons, Bool.and_eq_true]
    exact ⟨(lowEq_slash '/').mpr rfl, hb⟩

lemma rxMatch_compile_iff (ts : List GlobTok) (s : List Char) :
    rxMatch (ts.flatMap GlobTok.compile) s = true ↔ SemMatch ts s := by
  induction ts generalizing s with
  | nil =>
    simp only [List.flatMap_nil, SemMatch]
    cases s with
    | nil =>
      rw [rxMatch_nil_nil]
      simp
    | cons c s' =>
      rw [rxMatch_nil_cons]
      simp
  | cons t rest ih =>
    rw [List.flatMap_cons]
    cases t with
    | lit c =>
      show rxMatch (.rlit c :: rest.flatMap GlobTok.compile) s = true ↔ _
      cases s with
      | nil =>
        rw [rxMatch_lit_nil]
        simp [SemMatch]
      | cons d s' =>
        rw [rxMatch_lit_cons, Bool.and_eq_true, ih s']
        simp only [SemMatch]
        constructor
        · rintro ⟨h1, h2⟩
          exact ⟨d, s', rfl, h1, h2⟩
        · rintro ⟨d', s'', heq, h1, h2⟩
          obtain ⟨hd, hs⟩ := List.cons.injEq .. ▸ heq
          subst hd
          subst hs
          exact ⟨h1, h2⟩
    | q =>
      show rxMatch (.rdot :: rest.flatMap GlobTok.compile) s = true ↔ _
      cases s with
      | nil =>
        rw [rxMatch_dot_nil]
        simp [SemMatch]
      | cons d s' =>
        rw [rxMatch_dot_cons, ih s']
        simp only [SemMatch]
        constructor
        · intro h
          exact ⟨d, s', rfl, h⟩
        · rintro ⟨d', s'', heq, h⟩
          obtain ⟨hd, hs⟩ := List.cons.injEq .. ▸ heq
          subst hs
          exact h
    | star =>
      show rxMatch (.rnonSlashStar :: rest.flatMap GlobTok.compile) s = true ↔ _
      rw [rxMatch_nss_iff]
      simp only [SemMatch]
      constructor
      · rintro ⟨a, b, hab, hns, hb⟩
        exact ⟨a, b, hab, hns, (ih b).mp hb⟩
      · rintro ⟨a, b, hab, hns, hb⟩
        exact ⟨a, b, hab, hns, (ih b).mpr hb⟩
    | dstar =>
      show rxMatch (.rdotStar :: rest.flatMap GlobTok.compile) s = true ↔ _
      rw [rxMatch_dotStar_iff]
      simp only [SemMatch]
      constructor
      · rintro ⟨a, b, hab, hb⟩
        exact ⟨a, b, hab, (ih b).mp hb⟩
      · rintro ⟨a, b, hab, hb⟩
        exact ⟨a, b, hab, (ih b).mpr hb⟩
    | dstarSlash =>
      show rxMatch (.rdotStar :: .rlit '/' :: rest.flatMap GlobTok.compile) s =
          true ↔ _
      rw [rxMatch_dotStarSlash_iff]
      simp only [SemMatch]
      constructor
      · rintro ⟨a, b, hab, hb⟩
        exact ⟨a, b, hab, (ih b).mp hb⟩
      · rintro ⟨a, b, hab, hb⟩
        exact ⟨a, b, hab, (ih b).mpr hb⟩

lemma normSlashes_eq_self (s : List Char) (h : ∀ c ∈ s, c ≠ '\\') :
    normSlashes s = s := by
  induction s with
  | nil => rfl
  | cons c cs ih =>
    simp only [normSlashes, List.map_cons]
    rw [if_neg (h c (by simp))]
    congr 1
    exact ih fun x hx => h x (by simp [hx])

lemma renderGlob_no_backslash (ts : List GlobTok)
    (hall : ts.all okLit = true) : ∀ c ∈ renderGlob ts, c ≠ '\\' := by
  induction ts with
  | nil => simp [renderGlob]
  | cons t rest ih =>
    intro c hc
    rw [renderGlob, List.flatMap_cons] at hc
    rcases List.mem_append.mp hc with hmem | hmem
    · have hok : okLit t = true := List.all_eq_true.mp hall t (by simp)
      cases t with
      | lit d =>
        obtain ⟨_, _, h3⟩ := okLit_facts d hok
        simp only [GlobTok.render, List.mem_singleton] at hmem
        rw [hmem]
        exact h3
      | q =>
        simp only [GlobTok.render, List.mem_singleton] at hmem
        rw [hmem]
        decide
      | star =>
        simp only [GlobTok.render, List.mem_singleton] at hmem
        rw [hmem]
        decide
      | dstar =>
        simp only [GlobTok.render, List.mem_cons, List.not_mem_nil,
          or_false] at hmem
        rcases hmem with h | h <;> (rw [h]; decide)
      | dstarSlash =>
        simp only [GlobTok.render, List.mem_cons, List.not_mem_nil,
          or_false] at hmem
        rcases hmem with h | h | h <;> (rw [h]; decide)
    · have hall' : rest.all okLit = true := List.all_eq_true.mpr fun x hx =>
        List.all_eq_true.mp hall x (by simp [hx])
      exact ih hall' c hmem

lemma wfGlob_all (ts : List GlobTok) (hwf : wfGlob ts = true) :
    ts.all okLit = true := by
  simp only [wfGlob, Bool.and_eq_true] at hwf
  exact hwf.1

lemma wfGlob_cons_dstarSlash (ts : List GlobTok) (hwf : wfGlob ts = true) :
    wfGlob (.dstarSlash :: ts) = true := by
  simp only [wfGlob, Bool.and_eq_true] at hwf ⊢
  refine ⟨by simp [okLit, hwf.1], ?_⟩
  cases ts with
  | nil => rfl
  | cons b bs =>
    have hb : okPair .dstarSlash b = true := by cases b <;> rfl
    have : okPairs (GlobTok.dstarSlash :: b :: bs) =
        (okPair .dstarSlash b && okPairs (b :: bs)) := rfl
    rw [this, hb, hwf.2]
    rfl

lemma globToRegexToks_renderGlob (ts : List GlobTok)
    (hwf : wfGlob ts = true) :
    globToRegexToks (renderGlob ts) =
      (effectiveToks ts).flatMap GlobTok.compile := by
  have hall : ts.all okLit = true := wfGlob_all ts hwf
  simp only [globToRegexToks]
  rw [normSlashes_eq_self _ (renderGlob_no_backslash ts hall)]
  by_cases hsl : (renderGlob ts).contains '/'
  · rw [if_pos hsl]
    have hmem : '/' ∈ renderGlob ts := by simpa using hsl
    have heff : effectiveToks ts = ts := by simp [effectiveToks, hmem]
    rw [show renderGlob ts = ts.flatMap GlobTok.render from rfl,
      escape_flatMap, stage1_dead ts hwf, stage2_lemma ts hwf,
      stage3_lemma ts hwf, stage4_lemma ts hwf, parse_flatMap ts hall, heff]
  · rw [if_neg hsl]
    have hmem : '/' ∉ renderGlob ts := by simpa using hsl
    have heff : effectiveToks ts = .dstarSlash :: ts := by
      simp [effectiveToks, hmem]
    have hwf2 : wfGlob (.dstarSlash :: ts) = true :=
      wfGlob_cons_dstarSlash ts hwf
    have hall2 : (GlobTok.dstarSlash :: ts).all okLit = true :=
      wfGlob_all _ hwf2
    rw [show ('*' :: '*' :: '/' :: renderGlob ts : List Char) =
        (GlobTok.dstarSlash :: ts).flatMap GlobTok.render from rfl,
      escape_flatMap, stage1_dead _ hwf2, stage2_lemma _ hwf2,
      stage3_lemma _ hwf2, stage4_lemma _ hwf2, parse_flatMap _ hall2, heff]

/-- C7 counterexample: the wildcard-free pattern `dist/` matches the path
`dist` under `isIgnored` (the pattern's trailing slash is stripped before
comparing), while the claim's verbatim four-way test does not match. -/
theorem claim7_counterexample :
    hasWildcard ("dist/").toList = false ∧
    isIgnored "dist" ["dist/"] = true ∧
    claimLiteralMatch "dist" "dist/" = false := by
  refine ⟨by decide, by decide, by decide⟩

/-- C7, amended: for every path and every wildcard-free exclusion pattern,
`isIgnored` reports a match exactly when the slash-normalized relative path
equals, starts with (plus `/`), contains (between `/`s), or ends with
(after a `/`) the cleaned pattern: the pattern with backslashes normalized
to slashes and one trailing slash stripped — rather than the verbatim
pattern of the claim. -/
theorem claim7_literal_matching (path pattern : String)
    (h : hasWildcard pattern.toList = false) :
    isIgnored path [pattern] = cleanedLiteralMatch path pattern := by
  have hn : hasWildcard (normSlashes pattern.data) = false := by
    rw [hasWildcard_normSlashes]; exact h
  simp only [isIgnored]
  rw [if_neg (by simp)]
  simp only [List.any_cons, List.any_nil, Bool.or_false]
  rw [matchesPattern]
  rw [if_pos (by simp [hn])]
  rfl

/-- Witness for C7 at a concrete wildcard-free pattern. -/
theorem claim7_witness :
    hasWildcard ("node_modules").toList = false ∧
    isIgnored "a/node_modules/b" ["node_modules"] =
      cleanedLiteralMatch "a/node_modules/b" "node_modules" :=
  ⟨by decide,
    claim7_literal_matching "a/node_modules/b" "node_modules" (by decide)⟩

/-- C6 counterexample: three divergences from the claimed wildcard
semantics.  First, `globToRegex` prepends `**/` to the slash-free pattern
`*.log`, so `isIgnored` matches `dir/a.log`, while under the claim's
reading a `*` cannot cross a separator and nothing is prepended.  Second,
the trailing `/**` of `src/**` is not compiled specially (its `**`
matches any run of characters after a literal `/`), so `isIgnored` does
not match `src`, while the claim's zero-or-more-trailing-segments reading
does.  Third, the leading `**/` of `**/foo` requires at least one slash,
because the rewrite that would have made it an optional group searches
for an escaped slash the escape step never produces; so `isIgnored` does
not match `foo`, while the claim's zero-or-more-leading-segments reading
does. -/
theorem claim6_counterexample :
    (hasWildcard ("*.log").toList = true ∧
      isIgnored "dir/a.log" ["*.log"] = true ∧
      claimGlobMatch "dir/a.log" "*.log" = false) ∧
    (hasWildcard ("src/**").toList = true ∧
      isIgnored "src" ["src/**"] = false ∧
      claimGlobMatch "src" "src/**" = true) ∧
    (hasWildcard ("**/foo").toList = true ∧
      isIgnored "foo" ["**/foo"] = false ∧
      claimGlobMatch "foo" "**/foo" = true) := by
  refine ⟨⟨by decide, ?_, ?_⟩, ⟨by decide, ?_, ?_⟩, ⟨by decide, ?_, ?_⟩⟩
  · simp [isIgnored, matchesPattern, hasWildcard, normSlashes, globToRegexToks,
      replaceAll, parseRegex, escapeChar, specialChars, rxMatch, lowEq]
  · simp [claimGlobMatch, claimTokenize, normSlashes, cMatch, cstarScan, lowEq]
  · simp [isIgnored, matchesPattern, hasWildcard, normSlashes, globToRegexToks,
      replaceAll, parseRegex, escapeChar, specialChars, rxMatch, lowEq]
  · simp [claimGlobMatch, claimTokenize, normSlashes, cMatch, lowEq]
  · simp [isIgnored, matchesPattern, hasWildcard, normSlashes, globToRegexToks,
      replaceAll, parseRegex, escapeChar, specialChars, rxMatch, lowEq]
  · simp [claimGlobMatch, claimTokenize, normSlashes, cMatch, lowEq]

/-- C6, amended: for every well-formed wildcard pattern (written in the
token grammar `GlobTok`: literals that are not wildcards or escapes, `?`,
`*`, `**` not followed by `/`, and `**/`, with no two adjacent star
tokens), `isIgnored` matches the slash-normalized relative path against
the declarative token semantics — after prepending `**/` when the pattern
contains no slash.  In that semantics `*` matches a run of non-separator
characters, `?` exactly one character, `**` any run of characters,
matching is case-insensitive and anchored, and `**/` matches an arbitrary
run of characters followed by a mandatory `/` (one or more leading
segments, never zero): the first rewrite of `globToRegex` searches for an
escaped slash the escape step never produces, so the optional group
`(?:.*/)?` is never generated and `**/` compiles to `.*` plus a literal
slash. -/
theorem claim6_wildcard_matching (ts : List GlobTok) (path : String)
    (hwf : wfGlob ts = true)
    (hw : hasWildcard (renderGlob ts) = true) :
    (isIgnored path [String.mk (renderGlob ts)] = true ↔
      SemMatch (effectiveToks ts) (normSlashes path.toList)) := by
  simp only [isIgnored]
  rw [if_neg (by simp)]
  simp only [List.any_cons, List.any_nil, Bool.or_false]
  have htl : (String.mk (renderGlob ts)).toList = renderGlob ts := rfl
  rw [htl, matchesPattern]
  have hns : normSlashes (renderGlob ts) = renderGlob ts :=
    normSlashes_eq_self _ (renderGlob_no_backslash ts (wfGlob_all ts hwf))
  rw [hns, if_neg (by simp [hw]), globToRegexToks_renderGlob ts hwf]
  exact rxMatch_compile_iff (effectiveToks ts) (normSlashes path.toList)

/-- Witness for the amended C6 at the concrete pattern `*.log`. -/
theorem claim6_witness :
    wfGlob exGlob = true ∧
    hasWildcard (renderGlob exGlob) = true ∧
    (isIgnored "dir/a.log" [String.mk (renderGlob exGlob)] = true ↔
      SemMatch (effectiveToks exGlob) (normSlashes ("dir/a.log").toList)) :=
  ⟨by decide, by decide,
    claim6_wildcard_matching exGlob "dir/a.log" (by decide) (by decide)⟩

end PatternMatching


end CodeBridge
